import Mathlib

/-!
# MBP-10 order book reconstruction (`reconstruction_mbp.cpp`)

A shallow embedding of the order book of `reconstruction_mbp.cpp` and of the
record loop of its `main`, followed by theorems about them.

Modelling conventions.

* `double` prices are only ever compared and used as map keys, never computed
  with; they are modelled by rationals (every finite `double` is one, and the
  comparison of finite doubles is the comparison of their values). NaN keys,
  for which `std::map` has no defined behaviour, are outside the model.
* `int` sizes and `long` identifiers are modelled by `Int`. The accumulator
  `int total_size` of `get_top10_levels` is modelled in 32-bit arithmetic:
  signed overflow, undefined in C++, is taken as the two's-complement
  wrap-around the usual platforms give (`wrapInt32`).
* `std::map<double, std::vector<Order>, Cmp>` is modelled by an association
  list that the operations keep sorted by `Cmp`; lookup, `operator[]` and
  `erase` walk the list with the comparator of the map, the way the ordered
  container locates a key. `operator[]` creates an empty level when the key is
  absent, as in C++.
* `std::unordered_map<long, Order>` is only used through `find`, `operator[]`,
  `erase` and `clear`, and is modelled by a function `Int → Option Order`.
  `operator[]` on an absent key creates a value-initialised `Order`.
-/

namespace MBP

/-! ## Data model -/

/-- Prices: the finite values of a C++ `double`, compared exactly. -/
abbrev Price := ℚ

/-- The `Order` struct of the source. -/
structure Order where
  order_id : Int
  side : Char
  price : Price
  size : Int
deriving DecidableEq

/-- The `MBORecord` struct of the source. -/
structure MBORecord where
  ts_event : String
  action : String
  side : Char
  price : Price
  size : Int
  order_id : Int
deriving DecidableEq

/-- A `std::map<double, std::vector<Order>, Cmp>`: entries in iteration order. -/
abbrev LevelMap := List (Price × List Order)

/-- A `std::unordered_map<long, Order>`. -/
abbrev OrderIndex := Int → Option Order

/-- The three private members of `class OrderBook`. -/
structure OrderBook where
  bids : LevelMap
  asks : LevelMap
  order_map : OrderIndex

/-- Comparator of `bids`: `std::greater<>`. -/
def bidCmp (a b : Price) : Bool := decide (b < a)

/-- Comparator of `asks`: `std::less<double>`. -/
def askCmp (a b : Price) : Bool := decide (a < b)

/-! ## Ordered map primitives -/

/-- The call `m.find(p)`: the level stored under a key equivalent to `p`. -/
def mapFind (cmp : Price → Price → Bool) (p : Price) : LevelMap → Option (List Order)
  | [] => none
  | (k, v) :: rest =>
    if cmp p k then none
    else if cmp k p then mapFind cmp p rest
    else some v

/-- The access `m[p]` followed by an in-place update `f` of the referenced
vector; `m[p]` inserts an empty vector when the key is absent. -/
def mapUpdate (cmp : Price → Price → Bool) (p : Price) (f : List Order → List Order) :
    LevelMap → LevelMap
  | [] => [(p, f [])]
  | (k, v) :: rest =>
    if cmp p k then (p, f []) :: (k, v) :: rest
    else if cmp k p then (k, v) :: mapUpdate cmp p f rest
    else (k, f v) :: rest

/-- The call `m.erase(p)`. -/
def mapErase (cmp : Price → Price → Bool) (p : Price) : LevelMap → LevelMap
  | [] => []
  | (k, v) :: rest =>
    if cmp p k then (k, v) :: rest
    else if cmp k p then (k, v) :: mapErase cmp p rest
    else rest

/-- The vector a reference obtained from `m[p]` or `it->second` denotes. -/
def mapGet (cmp : Price → Price → Bool) (p : Price) (m : LevelMap) : List Order :=
  (mapFind cmp p m).getD []

/-- The idiom `if (orders.empty()) m.erase(p);` on the level at `p`. -/
def eraseIfEmpty (cmp : Price → Price → Bool) (p : Price) (m : LevelMap) : LevelMap :=
  if (mapGet cmp p m).isEmpty then mapErase cmp p m else m

/-! ## Index primitives -/

/-- The assignment `order_map[id] = o`. -/
def indexSet (om : OrderIndex) (id : Int) (o : Order) : OrderIndex :=
  fun j => if j = id then some o else om j

/-- The call `order_map.erase(id)`. -/
def indexErase (om : OrderIndex) (id : Int) : OrderIndex :=
  fun j => if j = id then none else om j

/-- A value-initialised `Order`, what `order_map[id]` creates for an absent key. -/
def defaultOrder : Order :=
  { order_id := 0, side := Char.ofNat 0, price := 0, size := 0 }

/-- The assignment `order_map[id].size = s`. -/
def indexSetSize (om : OrderIndex) (id : Int) (s : Int) : OrderIndex :=
  indexSet om id { (om id).getD defaultOrder with size := s }

/-! ## `OrderBook` member functions -/

/-- A default-constructed `OrderBook`. -/
def emptyBook : OrderBook :=
  { bids := [], asks := [], order_map := fun _ => none }

/-- Member `OrderBook::add_order`. -/
def add_order (b : OrderBook) (order : Order) : OrderBook :=
  let b1 : OrderBook :=
    if order.side = 'B' then
      { b with bids := mapUpdate bidCmp order.price (fun os => os ++ [order]) b.bids }
    else
      { b with asks := mapUpdate askCmp order.price (fun os => os ++ [order]) b.asks }
  { b1 with order_map := indexSet b1.order_map order.order_id order }

/-- The loop of `modify_order`: set the size of the first order with the given
id, then `break`. -/
def setFirstSize (order_id : Int) (new_size : Int) : List Order → List Order
  | [] => []
  | o :: rest =>
    if o.order_id = order_id then { o with size := new_size } :: rest
    else o :: setFirstSize order_id new_size rest

/-- Member `OrderBook::modify_order`. -/
def modify_order (b : OrderBook) (order_id : Int) (new_size : Int) : OrderBook :=
  match b.order_map order_id with
  | none => b
  | some old =>
    let ord : Order := { old with size := new_size }
    let om := indexSet b.order_map order_id ord
    if ord.side = 'B' then
      { b with order_map := om,
               bids := mapUpdate bidCmp ord.price (setFirstSize order_id new_size) b.bids }
    else
      { b with order_map := om,
               asks := mapUpdate askCmp ord.price (setFirstSize order_id new_size) b.asks }

/-- The erase-remove idiom of `cancel_order` on one vector. -/
def removeId (order_id : Int) (orders : List Order) : List Order :=
  orders.filter (fun o => !decide (o.order_id = order_id))

/-- Member `OrderBook::cancel_order`. -/
def cancel_order (b : OrderBook) (order_id : Int) : OrderBook :=
  match b.order_map order_id with
  | none => b
  | some ord =>
    if ord.side = 'B' then
      { b with bids := eraseIfEmpty bidCmp ord.price
                          (mapUpdate bidCmp ord.price (removeId order_id) b.bids),
               order_map := indexErase b.order_map order_id }
    else
      { b with asks := eraseIfEmpty askCmp ord.price
                          (mapUpdate askCmp ord.price (removeId order_id) b.asks),
               order_map := indexErase b.order_map order_id }

/-- The consuming loop of `apply_trade` over one level: returns the vector and
the index after the loop. -/
def consume : List Order → Int → OrderIndex → List Order × OrderIndex
  | [], _, om => ([], om)
  | o :: rest, remaining, om =>
    if 0 < remaining then
      if o.size ≤ remaining then
        consume rest (remaining - o.size) (indexErase om o.order_id)
      else
        ({ o with size := o.size - remaining } :: rest,
          indexSetSize om o.order_id (o.size - remaining))
    else (o :: rest, om)

/-- Member `OrderBook::apply_trade`. -/
def apply_trade (b : OrderBook) (price : Price) (size : Int) (original_side : Char) :
    OrderBook :=
  if original_side = 'A' then
    match mapFind bidCmp price b.bids with
    | none => b
    | some orders =>
      let r := consume orders size b.order_map
      { b with bids := eraseIfEmpty bidCmp price (mapUpdate bidCmp price (fun _ => r.1) b.bids),
               order_map := r.2 }
  else if original_side = 'B' then
    match mapFind askCmp price b.asks with
    | none => b
    | some orders =>
      let r := consume orders size b.order_map
      { b with asks := eraseIfEmpty askCmp price (mapUpdate askCmp price (fun _ => r.1) b.asks),
               order_map := r.2 }
  else b

/-- Member `OrderBook::clear`. -/
def clear (_b : OrderBook) : OrderBook := emptyBook

/-- One output level `(price, total_size, count)`. -/
abbrev LevelRow := Price × Int × Int

/-- The value a 32-bit `int` holds after an arithmetic result `x`:
two's-complement wrap-around into `[-2^31, 2^31)`. -/
def wrapInt32 (x : Int) : Int :=
  (x + 2147483648) % 4294967296 - 2147483648

/-- The inner loop of `get_top10_levels`: `int total_size = 0;` followed by
`total_size += order.size` for every order, in 32-bit `int` arithmetic. -/
def total_size (orders : List Order) : Int :=
  orders.foldl (fun acc o => wrapInt32 (acc + o.size)) 0

/-- The outer loop of `get_top10_levels` over one side: append a row per map
entry and `break` once ten rows have been collected. -/
def collectLevels : LevelMap → List LevelRow → List LevelRow
  | [], acc => acc
  | (price, orders) :: rest, acc =>
    let acc1 := acc ++ [(price, total_size orders, (orders.length : Int))]
    if acc1.length = 10 then acc1 else collectLevels rest acc1

/-- Member `OrderBook::get_top10_levels`: `(bid_levels, ask_levels)`. -/
def get_top10_levels (b : OrderBook) : List LevelRow × List LevelRow :=
  (collectLevels b.bids [], collectLevels b.asks [])

/-! ## The record loop of `main` -/

/-- Calls of the mutating member functions of `OrderBook`. -/
inductive BookCall where
  | add_order (order : Order)
  | modify_order (order_id : Int) (new_size : Int)
  | cancel_order (order_id : Int)
  | apply_trade (price : Price) (size : Int) (original_side : Char)
  | clear
deriving DecidableEq

/-- One row written by `write_mbp_snapshot`: the record it is tagged with (time
stamp and passthrough fields) and the levels of both sides. -/
structure Snapshot where
  record : MBORecord
  bid_levels : List LevelRow
  ask_levels : List LevelRow
deriving DecidableEq

/-- The variables of `main` that live across iterations of the record loop:
`book`, `pending_records`, `first_row`, the rows written to `outfile` so far,
and a log of the `book` member calls made so far. -/
structure Driver where
  book : OrderBook
  pending_records : List MBORecord
  first_row : Bool
  outfile : List Snapshot
  calls : List BookCall

/-- The state of `main` when the record loop is entered. -/
def initDriver : Driver :=
  { book := emptyBook, pending_records := [], first_row := true, outfile := [], calls := [] }

/-- The tail of the loop body: `get_top10_levels` then `write_mbp_snapshot`. -/
def emitSnapshot (st : Driver) (record : MBORecord) : Driver :=
  let levels := get_top10_levels st.book
  { st with outfile := st.outfile ++ [{ record := record, bid_levels := levels.1,
                                        ask_levels := levels.2 }] }

/-- The test of the third branch, `record.action == "C" && pending_records.size() >= 2
&& pending_records[0].action == "T" && pending_records[1].action == "F"`; when it
holds the result is `pending_records[0]`. -/
def tripletTrade (record : MBORecord) : List MBORecord → Option MBORecord
  | t :: f :: _ =>
    if record.action = "C" ∧ t.action = "T" ∧ f.action = "F" then some t else none
  | _ => none

/-- The final `else` branch of the loop body: drop the pending records and
dispatch on `A`, `M`, `C`. -/
def regularAction (st : Driver) (record : MBORecord) : Driver :=
  let st : Driver := { st with pending_records := [] }
  let order : Order :=
    { order_id := record.order_id, side := record.side, price := record.price,
      size := record.size }
  if record.action = "A" then
    { st with book := add_order st.book order,
              calls := st.calls ++ [BookCall.add_order order] }
  else if record.action = "M" then
    { st with book := modify_order st.book order.order_id order.size,
              calls := st.calls ++ [BookCall.modify_order order.order_id order.size] }
  else if record.action = "C" then
    { st with book := cancel_order st.book order.order_id,
              calls := st.calls ++ [BookCall.cancel_order order.order_id] }
  else st

/-- One iteration of the `while (std::getline(infile, line))` loop of `main`
on a row with at least 11 fields, after `parse_mbo_record`. -/
def processRecord (st : Driver) (record : MBORecord) : Driver :=
  if st.first_row = true ∧ record.action = "R" then
    { st with first_row := false }
  else
    let st : Driver := { st with first_row := false }
    if record.action = "T" then
      { st with pending_records := [record] }
    else if record.action = "F" ∧
        st.pending_records.getLast?.map (fun r => r.action) = some "T" then
      { st with pending_records := st.pending_records ++ [record] }
    else
      match tripletTrade record st.pending_records with
      | some trade_record =>
        let st1 : Driver :=
          if trade_record.side ≠ 'N' then
            { st with
                book := apply_trade st.book trade_record.price trade_record.size
                          trade_record.side,
                calls := st.calls ++ [BookCall.apply_trade trade_record.price
                          trade_record.size trade_record.side] }
          else st
        emitSnapshot { st1 with pending_records := [] } record
      | none => emitSnapshot (regularAction st record) record

/-- The record loop of `main` over the well-formed rows of the input. -/
def driverLoop (st : Driver) (records : List MBORecord) : Driver :=
  records.foldl processRecord st

/-! ## Specification-side definitions -/

/-- The aggregate size of a level as a mathematical integer: the sum of the
resting sizes, accumulated from the front. -/
def totalSize (orders : List Order) : Int :=
  orders.foldl (fun acc o => acc + o.size) 0

/-- The properties of a strict total order, for a Boolean comparator. -/
structure StrictCmp (cmp : Price → Price → Bool) : Prop where
  irrefl : ∀ a, cmp a a = false
  trans : ∀ a b c, cmp a b = true → cmp b c = true → cmp a c = true
  total : ∀ a b, cmp a b = false → cmp b a = false → a = b

/-- The representation invariant of a `std::map`: keys strictly increasing in
the order of the comparator. -/
def SortedBy (cmp : Price → Price → Bool) (m : LevelMap) : Prop :=
  m.Pairwise (fun x y => cmp x.1 y.1 = true)

/-- All orders resting in a map, level after level. -/
def mapOrders : LevelMap → List Order
  | [] => []
  | (_, v) :: rest => v ++ mapOrders rest

/-- Both maps of a book satisfy the representation invariant of `std::map`
(`bids` is ordered by `std::greater`, `asks` by `std::less`). -/
def OrderBook.WF (b : OrderBook) : Prop :=
  SortedBy bidCmp b.bids ∧ SortedBy askCmp b.asks

/-- All orders resting in the book, bids first. -/
def allOrders (b : OrderBook) : List Order :=
  mapOrders b.bids ++ mapOrders b.asks

/-- Number of resting orders carrying the identifier `id`. -/
def countId (b : OrderBook) (id : Int) : Nat :=
  (allOrders b).countP (fun o => decide (o.order_id = id))

/-- The order sequence of the level an order with the given side and price
belongs to (`'B'` selects `bids`, anything else `asks`); empty when there is no
such level. -/
def levelAt (b : OrderBook) (side : Char) (price : Price) : List Order :=
  if side = 'B' then mapGet bidCmp price b.bids else mapGet askCmp price b.asks

/-- Index/level consistency: (1) every indexed id has exactly one order in the
book, in the level named by the index entry, with the size of the index entry;
(2) every order in every level is indexed. -/
def Consistent (b : OrderBook) : Prop :=
  (∀ id e, b.order_map id = some e →
      countId b id = 1 ∧
      ∃ o ∈ levelAt b e.side e.price, o.order_id = id ∧ o.size = e.size) ∧
  (∀ p lvl, ((p, lvl) ∈ b.bids ∨ (p, lvl) ∈ b.asks) →
      ∀ o ∈ lvl, b.order_map o.order_id ≠ none)

/-- Every resting size is non-negative. -/
def NonNegSizes (b : OrderBook) : Prop :=
  ∀ o ∈ allOrders b, 0 ≤ o.size

/-- Run one member call on a book. -/
def applyCall (b : OrderBook) : BookCall → OrderBook
  | BookCall.add_order order => add_order b order
  | BookCall.modify_order order_id new_size => modify_order b order_id new_size
  | BookCall.cancel_order order_id => cancel_order b order_id
  | BookCall.apply_trade price size original_side => apply_trade b price size original_side
  | BookCall.clear => clear b

/-- Run a sequence of member calls, first call first. -/
def runCalls (b : OrderBook) (calls : List BookCall) : OrderBook :=
  calls.foldl applyCall b

/-- No `add_order` of the sequence uses an id that is in `order_map` at the
moment of the call. -/
def FreshAdds : OrderBook → List BookCall → Prop
  | _, [] => True
  | b, BookCall.add_order order :: rest =>
    b.order_map order.order_id = none ∧ FreshAdds (add_order b order) rest
  | b, call :: rest => FreshAdds (applyCall b call) rest

/-- Number of orders of a sequence carrying the identifier `id`. -/
def idCount (id : Int) (orders : List Order) : Nat :=
  orders.countP (fun o => decide (o.order_id = id))

/-- The side character whose level map is `bids` (`true`) or `asks` (`false`). -/
def sideOf (toBids : Bool) : Char := if toBids then 'B' else 'A'

/-- The maps of `b'` are those of `b` except that the level at price `p` of one
side (bids when `toBids`) now holds `L'`, an absent level counting as empty. -/
structure LevelStep (b b' : OrderBook) (toBids : Bool) (p : Price) (L' : List Order) : Prop where
  wf : b'.WF
  get : ∀ side q, levelAt b' side q =
    if decide (side = 'B') = toBids ∧ q = p then L' else levelAt b side q
  count : ∀ id, countId b' id + idCount id (levelAt b (sideOf toBids) p) =
    countId b id + idCount id L'


/-- The index after `order_map.erase(id)` for every `id` of a list. -/
def eraseIds (om : OrderIndex) (ids : List Int) : OrderIndex :=
  fun j => if j ∈ ids then none else om j

/-- Consistency of index and levels for one identifier: an id that is not
indexed rests nowhere, an indexed id rests exactly once, in the level its index
entry names and with the size of the index entry. -/
def IdOK (b : OrderBook) (id : Int) : Prop :=
  (b.order_map id = none → countId b id = 0) ∧
  (∀ e, b.order_map id = some e →
    countId b id = 1 ∧ ∃ o ∈ levelAt b e.side e.price, o.order_id = id ∧ o.size = e.size)

/-- The shape a trade leaves on the level it consumes: `L` is the sequence
before, `L'` the sequence after (empty when the level was removed), `om` and
`om'` the index before and after. A prefix `pre` of `L` is removed; what
remains is the rest `post`, unchanged except possibly for a smaller size of its
front order; the removed orders are exactly those whose ids were erased from
the index; the index size of the front order that remains is its level size. -/
def ConsumedInArrivalOrder (om om' : OrderIndex) (L L' : List Order) : Prop :=
  ∃ pre post, L = pre ++ post ∧
    (L' = post ∨
      ∃ o rest o', post = o :: rest ∧ L' = o' :: rest ∧ o'.order_id = o.order_id ∧
        o'.side = o.side ∧ o'.price = o.price ∧ o'.size ≤ o.size) ∧
    (∀ id, (∃ o ∈ pre, o.order_id = id) ↔ (om id ≠ none ∧ om' id = none)) ∧
    (∀ o' ∈ L'.head?, ∃ e, om' o'.order_id = some e ∧ e.size = o'.size)

/-- A small reachable book used to instantiate the theorems: bids `1` (size 10)
and `2` (size 5) at price 100, ask `3` (size 7) at price 101. -/
def sampleBook : OrderBook :=
  runCalls emptyBook
    [BookCall.add_order ⟨1, 'B', 100, 10⟩, BookCall.add_order ⟨2, 'B', 100, 5⟩,
      BookCall.add_order ⟨3, 'A', 101, 7⟩]

/-- The member calls one iteration of the record loop makes, read off the
branches of the loop body. -/
def stepCalls (st : Driver) (record : MBORecord) : List BookCall :=
  if st.first_row = true ∧ record.action = "R" then []
  else if record.action = "T" then []
  else if record.action = "F" ∧
      st.pending_records.getLast?.map (fun r => r.action) = some "T" then []
  else
    match tripletTrade record st.pending_records with
    | some trade_record =>
      if trade_record.side ≠ 'N' then
        [BookCall.apply_trade trade_record.price trade_record.size trade_record.side]
      else []
    | none =>
      if record.action = "A" then
        [BookCall.add_order ⟨record.order_id, record.side, record.price, record.size⟩]
      else if record.action = "M" then [BookCall.modify_order record.order_id record.size]
      else if record.action = "C" then [BookCall.cancel_order record.order_id]
      else []

/-- The pending buffer the record loop holds after a stream, given the stream
in reverse (last record first): `[t, f]` after a Trade directly followed by a
Fill, `[t]` after a Trade, empty otherwise. -/
def pendingAfter : List MBORecord → List MBORecord
  | f :: t :: _ =>
    if f.action = "F" ∧ t.action = "T" then [t, f]
    else if f.action = "T" then [f] else []
  | [t] => if t.action = "T" then [t] else []
  | [] => []

/-- The row `get_top10_levels` reports for one map entry: price, the sum of
the sizes as the 32-bit accumulator `total_size` holds it, number of orders. -/
def levelRow (entry : Price × List Order) : LevelRow :=
  (entry.1, total_size entry.2, (entry.2.length : Int))

/-- The orders a sequence of calls has added and not cancelled afterwards, in
the order of their `add_order` calls. -/
def liveOrders : List BookCall → List Order
  | [] => []
  | BookCall.add_order o :: rest =>
    if BookCall.cancel_order o.order_id ∈ rest then liveOrders rest
    else o :: liveOrders rest
  | _ :: rest => liveOrders rest

/-- Every call of the sequence is an `add_order` of an order with the given
side and price or a `cancel_order`. -/
def AddsAndCancelsAt (side : Char) (price : Price) (calls : List BookCall) : Prop :=
  ∀ c ∈ calls,
    (∃ o, c = BookCall.add_order o ∧ o.side = side ∧ o.price = price) ∨
    (∃ id, c = BookCall.cancel_order id)

/-- The map that holds the single level `orders` at `price`, or nothing when
`orders` is empty. -/
def levelMapOf (price : Price) (orders : List Order) : LevelMap :=
  if orders.isEmpty then [] else [(price, orders)]

/-- A reachable book with twelve bid levels, at the prices 0 to 11. -/
def deepBook : OrderBook :=
  runCalls emptyBook
    ((List.range 12).map (fun i => BookCall.add_order ⟨(i : Int), 'B', (i : Price), 1⟩))

/-- The book holds at most one level, on the side selected by `side` and at
`price`, with the order sequence `X`; the index holds exactly the ids of `X`,
with entries of that side and price. -/
def OneLevel (side : Char) (price : Price) (X : List Order) (b : OrderBook) : Prop :=
  b.bids = (if side = 'B' then levelMapOf price X else []) ∧
  b.asks = (if side = 'B' then [] else levelMapOf price X) ∧
  (∀ id, b.order_map id ≠ none ↔ ∃ o ∈ X, o.order_id = id) ∧
  (∀ id e, b.order_map id = some e → e.side = side ∧ e.price = price)

/-- The level map an order with the given side belongs to: `bids` for `'B'`,
`asks` for every other side. -/
def sideLevels (b : OrderBook) (side : Char) : LevelMap :=
  if side = 'B' then b.bids else b.asks

/-- The rows `get_top10_levels` returns for the side an order with the given
side belongs to. -/
def sideRows (b : OrderBook) (side : Char) : List LevelRow :=
  if side = 'B' then (get_top10_levels b).1 else (get_top10_levels b).2

/-- No price level of the book is empty. -/
def NoEmptyLevel (b : OrderBook) : Prop :=
  ∀ ent, (ent ∈ b.bids ∨ ent ∈ b.asks) → ent.2 ≠ []

/-- A record that the loop absorbs without writing a row: a Trade, a Fill
directly after a Trade, or a full-book-Clear in first position. -/
def Absorbed (pre : List MBORecord) (r : MBORecord) : Prop :=
  r.action = "T" ∨ (r.action = "F" ∧ ∃ pre' t, pre = pre' ++ [t] ∧ t.action = "T") ∨
    (pre = [] ∧ r.action = "R")

/-- The order `o` with its size replaced by `new_size` when it carries the id
`order_id`, and `o` itself otherwise. -/
def resizeOrder (order_id : Int) (new_size : Int) (o : Order) : Order :=
  if o.order_id = order_id then { o with size := new_size } else o

/-- The map with the same keys in the same order and the same sequences, in
which the orders with id `order_id` have the size `new_size`. -/
def resizeLevels (order_id : Int) (new_size : Int) (m : LevelMap) : LevelMap :=
  m.map (fun ent => (ent.1, ent.2.map (resizeOrder order_id new_size)))

/-- The comparator of the level map an order with the given side belongs to. -/
def sideCmp (side : Char) : Price → Price → Bool :=
  if side = 'B' then bidCmp else askCmp

/-- The effect of a trade that exceeds the level `L` at `price` in the map
`m`: in the map `m'` after the trade there is no entry at `price`, every other
price is as before, the ids of `L` are gone from the index and every other
index entry is as before. -/
def LevelDropped (cmp : Price → Price → Bool) (price : Price) (L : List Order)
    (m m' : LevelMap) (om om' : OrderIndex) : Prop :=
  (∀ ent ∈ m', ent.1 ≠ price) ∧ mapFind cmp price m' = none ∧
    (∀ q, q ≠ price → mapFind cmp q m' = mapFind cmp q m) ∧
    (∀ o ∈ L, om' o.order_id = none) ∧
    (∀ j, (∀ o ∈ L, o.order_id ≠ j) → om' j = om j)

/-- A reachable book with ten ask levels, at the prices 0 to 9, and no bid. -/
def deepAskBook : OrderBook :=
  runCalls emptyBook
    ((List.range 10).map (fun i => BookCall.add_order ⟨(i : Int), 'A', (i : Price), 1⟩))

/-! ## Lemmas on the ordered map primitives -/

theorem bidCmp_strict : StrictCmp bidCmp where
  irrefl := by intro a; simp [bidCmp]
  trans := by intro a b c; simp only [bidCmp, decide_eq_true_eq]; intro h1 h2; exact lt_trans h2 h1
  total := by
    intro a b; simp only [bidCmp, decide_eq_false_iff_not, not_lt]; intro h1 h2; exact le_antisymm h1 h2

theorem askCmp_strict : StrictCmp askCmp where
  irrefl := by intro a; simp [askCmp]
  trans := by intro a b c; simp only [askCmp, decide_eq_true_eq]; intro h1 h2; exact lt_trans h1 h2
  total := by
    intro a b; simp only [askCmp, decide_eq_false_iff_not, not_lt]; intro h1 h2; exact le_antisymm h2 h1

section MapLemmas
variable {cmp : Price → Price → Bool}

theorem mapFind_mapUpdate_same (hc : StrictCmp cmp) (p : Price) (f : List Order → List Order)
    (m : LevelMap) : mapFind cmp p (mapUpdate cmp p f m) = some (f (mapGet cmp p m)) := by
  induction m with
  | nil => simp [mapUpdate, mapFind, mapGet, hc.irrefl]
  | cons x rest ih =>
    obtain ⟨k, v⟩ := x
    by_cases h1 : cmp p k = true
    · simp [mapUpdate, mapFind, mapGet, h1, hc.irrefl]
    · by_cases h2 : cmp k p = true
      · simp only [mapUpdate, mapFind, mapGet, h1, h2, if_true, if_false] 
        simpa [mapGet] using ih
      · simp [mapUpdate, mapFind, mapGet, h1, h2]

theorem mapFind_mapUpdate_ne (hc : StrictCmp cmp) {p q : Price} (hne : q ≠ p)
    (f : List Order → List Order) (m : LevelMap) :
    mapFind cmp q (mapUpdate cmp p f m) = mapFind cmp q m := by
  induction m with
  | nil =>
    simp only [mapUpdate, mapFind]
    by_cases h1 : cmp q p = true
    · simp [h1]
    · by_cases h2 : cmp p q = true
      · simp [h1, h2]
      · exact absurd (hc.total q p (by simpa using h1) (by simpa using h2)) hne
  | cons x rest ih =>
    obtain ⟨k, v⟩ := x
    by_cases h1 : cmp p k = true
    · simp only [mapUpdate, h1, if_true]
      by_cases h3 : cmp q p = true
      · have := hc.trans q p k h3 h1
        simp [mapFind, h3, this]
      · by_cases h4 : cmp p q = true
        · simp [mapFind, h3, h4]
        · exact absurd (hc.total q p (by simpa using h3) (by simpa using h4)) hne
    · by_cases h2 : cmp k p = true
      · simp only [mapUpdate, h1, h2, if_true, if_false, mapFind]
        rw [ih]
      · have hkp : k = p := hc.total k p (by simpa using h2) (by simpa using h1)
        subst hkp
        simp only [mapUpdate, h1, if_false, mapFind]
        by_cases h3 : cmp q k = true
        · simp [h3]
        · by_cases h4 : cmp k q = true
          · simp [h3, h4]
          · exact absurd (hc.total q k (by simpa using h3) (by simpa using h4)) hne

theorem mapGet_mapUpdate (hc : StrictCmp cmp) (p q : Price) (f : List Order → List Order)
    (m : LevelMap) :
    mapGet cmp q (mapUpdate cmp p f m) = if q = p then f (mapGet cmp p m) else mapGet cmp q m := by
  by_cases h : q = p
  · subst h; simp [mapGet, mapFind_mapUpdate_same hc]
  · simp [mapGet, mapFind_mapUpdate_ne hc h, h]

theorem SortedBy.head_lt (hc : StrictCmp cmp) {k : Price} {v : List Order} {rest : LevelMap}
    (hs : SortedBy cmp ((k, v) :: rest)) {q : Price} (hq : cmp q k = true ∨ q = k) :
    mapFind cmp q rest = none := by
  cases rest with
  | nil => rfl
  | cons y tl =>
    have hky : cmp k y.1 = true := (List.pairwise_cons.1 hs).1 y (List.mem_cons_self _ _)
    have : cmp q y.1 = true := by
      rcases hq with h | h
      · exact hc.trans _ _ _ h hky
      · rw [h]; exact hky
    obtain ⟨k2, v2⟩ := y
    simp [mapFind, this]

theorem mapFind_mapErase_same (hc : StrictCmp cmp) (p : Price) {m : LevelMap}
    (hs : SortedBy cmp m) : mapFind cmp p (mapErase cmp p m) = none := by
  induction m with
  | nil => rfl
  | cons x rest ih =>
    obtain ⟨k, v⟩ := x
    by_cases h1 : cmp p k = true
    · simp [mapErase, mapFind, h1]
    · by_cases h2 : cmp k p = true
      · simp only [mapErase, h1, h2, if_true, if_false, mapFind]
        exact ih (List.pairwise_cons.1 hs).2
      · have hkp : k = p := hc.total k p (by simpa using h2) (by simpa using h1)
        simp only [mapErase, h1, h2, if_false]
        exact SortedBy.head_lt hc hs (Or.inr hkp.symm)

theorem mapFind_mapErase_ne (hc : StrictCmp cmp) {p q : Price} (hne : q ≠ p) {m : LevelMap}
    (hs : SortedBy cmp m) : mapFind cmp q (mapErase cmp p m) = mapFind cmp q m := by
  induction m with
  | nil => rfl
  | cons x rest ih =>
    obtain ⟨k, v⟩ := x
    by_cases h1 : cmp p k = true
    · simp [mapErase, h1]
    · by_cases h2 : cmp k p = true
      · simp only [mapErase, h1, h2, if_true, if_false, mapFind]
        rw [ih (List.pairwise_cons.1 hs).2]
      · have hkp : k = p := hc.total k p (by simpa using h2) (by simpa using h1)
        subst hkp
        simp only [mapErase, h1, if_false, mapFind]
        by_cases h3 : cmp q k = true
        · simp only [h3, if_true]
          exact SortedBy.head_lt hc hs (Or.inl h3)
        · by_cases h4 : cmp k q = true
          · simp [h3, h4]
          · exact absurd (hc.total q k (by simpa using h3) (by simpa using h4)) hne

theorem mapGet_eraseIfEmpty (hc : StrictCmp cmp) (p q : Price) {m : LevelMap}
    (hs : SortedBy cmp m) : mapGet cmp q (eraseIfEmpty cmp p m) = mapGet cmp q m := by
  unfold eraseIfEmpty
  by_cases he : (mapGet cmp p m).isEmpty = true
  · simp only [he, if_true]
    by_cases h : q = p
    · subst h
      simp only [mapGet, mapFind_mapErase_same hc q hs]
      simp only [mapGet] at he
      simpa [List.isEmpty_iff] using he.symm
    · simp [mapGet, mapFind_mapErase_ne hc h hs]
  · simp [he]


theorem sortedBy_mapUpdate (hc : StrictCmp cmp) (p : Price) (f : List Order → List Order)
    {m : LevelMap} (hs : SortedBy cmp m) : SortedBy cmp (mapUpdate cmp p f m) := by
  induction m with
  | nil => simp [mapUpdate, SortedBy]
  | cons x rest ih =>
    obtain ⟨k, v⟩ := x
    have hs2 := List.pairwise_cons.1 hs
    by_cases h1 : cmp p k = true
    · simp only [mapUpdate, h1, if_true]
      refine List.pairwise_cons.2 ⟨?_, hs⟩
      intro y hy
      rcases List.mem_cons.1 hy with rfl | hy
      · exact h1
      · exact hc.trans _ _ _ h1 (hs2.1 y hy)
    · by_cases h2 : cmp k p = true
      · simp only [mapUpdate, h1, h2, if_true, if_false]
        refine List.pairwise_cons.2 ⟨?_, ih hs2.2⟩
        intro y hy
        have key : ∀ (l : LevelMap), (∀ z ∈ l, cmp k z.1 = true) →
            ∀ z ∈ mapUpdate cmp p f l, cmp k z.1 = true := by
          intro l
          induction l with
          | nil => intro _ z hz; simp only [mapUpdate, List.mem_singleton] at hz; subst hz; exact h2
          | cons w tl ihl =>
            intro hl z hz
            obtain ⟨k2, v2⟩ := w
            simp only [mapUpdate] at hz
            split at hz
            · rcases List.mem_cons.1 hz with rfl | hz
              · exact h2
              · exact hl z hz
            · split at hz
              · rcases List.mem_cons.1 hz with rfl | hz
                · exact hl _ (List.mem_cons_self _ _)
                · exact ihl (fun z hz => hl z (List.mem_cons_of_mem _ hz)) z hz
              · rcases List.mem_cons.1 hz with rfl | hz
                · exact hl (k2, v2) (List.mem_cons_self _ _)
                · exact hl z (List.mem_cons_of_mem _ hz)
        exact key rest hs2.1 y hy
      · simp only [mapUpdate, h1, h2, if_false]
        exact List.pairwise_cons.2 ⟨hs2.1, hs2.2⟩

theorem mapErase_sublist (p : Price) (m : LevelMap) : (mapErase cmp p m).Sublist m := by
  induction m with
  | nil => exact List.Sublist.refl _
  | cons x rest ih =>
    obtain ⟨k, v⟩ := x
    simp only [mapErase]
    split
    · exact List.Sublist.refl _
    · split
      · exact ih.cons₂ _
      · exact List.sublist_cons_self _ _

theorem sortedBy_mapErase (p : Price) {m : LevelMap} (hs : SortedBy cmp m) :
    SortedBy cmp (mapErase cmp p m) :=
  List.Pairwise.sublist (mapErase_sublist p m) hs

theorem sortedBy_eraseIfEmpty (p : Price) {m : LevelMap} (hs : SortedBy cmp m) :
    SortedBy cmp (eraseIfEmpty cmp p m) := by
  unfold eraseIfEmpty
  split
  · exact sortedBy_mapErase p hs
  · exact hs

theorem countP_mapOrders_mapUpdate (P : Order → Bool) (p : Price) (f : List Order → List Order)
    (m : LevelMap) :
    (mapOrders (mapUpdate cmp p f m)).countP P + (mapGet cmp p m).countP P =
      (mapOrders m).countP P + (f (mapGet cmp p m)).countP P := by
  induction m with
  | nil => simp [mapUpdate, mapOrders, mapGet, mapFind]
  | cons x rest ih =>
    obtain ⟨k, v⟩ := x
    by_cases h1 : cmp p k = true
    · simp [mapUpdate, mapOrders, mapGet, mapFind, h1]; omega
    · by_cases h2 : cmp k p = true
      · simp only [mapUpdate, mapOrders, mapGet, mapFind, h1, h2, if_true, if_false,
          Bool.false_eq_true, List.countP_append]
        simp only [mapGet] at ih
        omega
      · simp [mapUpdate, mapOrders, mapGet, mapFind, h1, h2]; omega

theorem countP_mapOrders_mapErase (P : Order → Bool) (p : Price) (m : LevelMap) :
    (mapOrders (mapErase cmp p m)).countP P + (mapGet cmp p m).countP P =
      (mapOrders m).countP P := by
  induction m with
  | nil => simp [mapErase, mapOrders, mapGet, mapFind]
  | cons x rest ih =>
    obtain ⟨k, v⟩ := x
    by_cases h1 : cmp p k = true
    · simp [mapErase, mapOrders, mapGet, mapFind, h1]
    · by_cases h2 : cmp k p = true
      · simp only [mapErase, mapOrders, mapGet, mapFind, h1, h2, if_true, if_false,
          Bool.false_eq_true, List.countP_append]
        simp only [mapGet] at ih
        omega
      · simp [mapErase, mapOrders, mapGet, mapFind, h1, h2]; omega

theorem countP_mapOrders_eraseIfEmpty (P : Order → Bool) (p : Price) (m : LevelMap) :
    (mapOrders (eraseIfEmpty cmp p m)).countP P = (mapOrders m).countP P := by
  unfold eraseIfEmpty
  split
  · rename_i he
    have := @countP_mapOrders_mapErase cmp P p m
    rw [List.isEmpty_iff.1 he] at this
    simpa using this
  · rfl

theorem mem_mapOrders_of_mem_mapGet {p : Price} {m : LevelMap} {o : Order}
    (h : o ∈ mapGet cmp p m) : o ∈ mapOrders m := by
  induction m with
  | nil => simp [mapGet, mapFind] at h
  | cons x rest ih =>
    obtain ⟨k, v⟩ := x
    simp only [mapGet, mapFind] at h
    simp only [mapOrders, List.mem_append]
    split at h
    · simp at h
    · split at h
      · exact Or.inr (ih h)
      · exact Or.inl (by simpa using h)

theorem mem_mapOrders_iff {m : LevelMap} {o : Order} :
    o ∈ mapOrders m ↔ ∃ p lvl, (p, lvl) ∈ m ∧ o ∈ lvl := by
  induction m with
  | nil => simp [mapOrders]
  | cons x rest ih =>
    obtain ⟨k, v⟩ := x
    simp only [mapOrders, List.mem_append, ih, List.mem_cons]
    constructor
    · rintro (h | ⟨p, lvl, h1, h2⟩)
      · exact ⟨k, v, Or.inl rfl, h⟩
      · exact ⟨p, lvl, Or.inr h1, h2⟩
    · rintro ⟨p, lvl, h1 | h1, h2⟩
      · cases h1; exact Or.inl h2
      · exact Or.inr ⟨p, lvl, h1, h2⟩

end MapLemmas

/-! ## Effect of the member functions on one level -/

section MapSteps
variable {cmp : Price → Price → Bool}

theorem mapGet_update_erase (hc : StrictCmp cmp) (p q : Price) (f : List Order → List Order)
    {m : LevelMap} (hs : SortedBy cmp m) :
    mapGet cmp q (eraseIfEmpty cmp p (mapUpdate cmp p f m)) =
      if q = p then f (mapGet cmp p m) else mapGet cmp q m := by
  rw [mapGet_eraseIfEmpty hc p q (sortedBy_mapUpdate hc p f hs), mapGet_mapUpdate hc]

theorem idCount_update_erase (id : Int) (p : Price) (f : List Order → List Order)
    (m : LevelMap) :
    idCount id (mapOrders (eraseIfEmpty cmp p (mapUpdate cmp p f m))) +
        idCount id (mapGet cmp p m) =
      idCount id (mapOrders m) + idCount id (f (mapGet cmp p m)) := by
  unfold idCount
  rw [countP_mapOrders_eraseIfEmpty]
  exact countP_mapOrders_mapUpdate _ p f m

theorem idCount_mapGet_le (id : Int) (p : Price) (m : LevelMap) :
    idCount id (mapGet cmp p m) ≤ idCount id (mapOrders m) := by
  have := @countP_mapOrders_mapErase cmp (fun o => decide (o.order_id = id)) p m
  unfold idCount
  omega

theorem idCount_two_levels (hc : StrictCmp cmp) (id : Int) {p q : Price} (hne : q ≠ p)
    {m : LevelMap} (hs : SortedBy cmp m) :
    idCount id (mapGet cmp p m) + idCount id (mapGet cmp q m) ≤ idCount id (mapOrders m) := by
  have h1 := @countP_mapOrders_mapErase cmp (fun o => decide (o.order_id = id)) p m
  have h2 := @idCount_mapGet_le cmp id q (mapErase cmp p m)
  have h3 : mapGet cmp q (mapErase cmp p m) = mapGet cmp q m := by
    simp [mapGet, mapFind_mapErase_ne hc hne hs]
  rw [h3] at h2
  unfold idCount at *
  omega

end MapSteps

theorem levelStep_bids {b : OrderBook} (hwf : b.WF) (p : Price) (L' : List Order)
    (m' : LevelMap) (om' : OrderIndex) (hs : SortedBy bidCmp m')
    (hget : ∀ q, mapGet bidCmp q m' = if q = p then L' else mapGet bidCmp q b.bids)
    (hcount : ∀ id, idCount id (mapOrders m') + idCount id (mapGet bidCmp p b.bids) =
      idCount id (mapOrders b.bids) + idCount id L') :
    LevelStep b { b with bids := m', order_map := om' } true p L' := by
  refine ⟨⟨hs, hwf.2⟩, ?_, ?_⟩
  · intro side q
    by_cases hB : side = 'B'
    · simp [levelAt, hB, hget]
    · simp [levelAt, hB]
  · intro id
    have := hcount id
    simp only [countId, allOrders, List.countP_append, levelAt, sideOf, idCount] at *
    simp only [if_true]
    omega

theorem levelStep_asks {b : OrderBook} (hwf : b.WF) (p : Price) (L' : List Order)
    (m' : LevelMap) (om' : OrderIndex) (hs : SortedBy askCmp m')
    (hget : ∀ q, mapGet askCmp q m' = if q = p then L' else mapGet askCmp q b.asks)
    (hcount : ∀ id, idCount id (mapOrders m') + idCount id (mapGet askCmp p b.asks) =
      idCount id (mapOrders b.asks) + idCount id L') :
    LevelStep b { b with asks := m', order_map := om' } false p L' := by
  refine ⟨⟨hwf.1, hs⟩, ?_, ?_⟩
  · intro side q
    by_cases hB : side = 'B'
    · simp [levelAt, hB]
    · simp [levelAt, hB, hget]
  · intro id
    have := hcount id
    have hA : ¬ (('A' : Char) = 'B') := by decide
    simp only [countId, allOrders, List.countP_append, levelAt, sideOf, idCount] at *
    simp only [Bool.false_eq_true, if_false, hA]
    omega

theorem add_order_step {b : OrderBook} (hwf : b.WF) (o : Order) :
    LevelStep b (add_order b o) (decide (o.side = 'B')) o.price
        (levelAt b o.side o.price ++ [o]) ∧
      (add_order b o).order_map = indexSet b.order_map o.order_id o := by
  by_cases hB : o.side = 'B'
  · have h := levelStep_bids hwf o.price (mapGet bidCmp o.price b.bids ++ [o])
      (mapUpdate bidCmp o.price (fun os => os ++ [o]) b.bids)
      (indexSet b.order_map o.order_id o)
      (sortedBy_mapUpdate bidCmp_strict _ _ hwf.1)
      (fun q => mapGet_mapUpdate bidCmp_strict _ _ _ _)
      (fun id => countP_mapOrders_mapUpdate _ _ _ _)
    simpa [add_order, hB, levelAt] using h
  · have h := levelStep_asks hwf o.price (mapGet askCmp o.price b.asks ++ [o])
      (mapUpdate askCmp o.price (fun os => os ++ [o]) b.asks)
      (indexSet b.order_map o.order_id o)
      (sortedBy_mapUpdate askCmp_strict _ _ hwf.2)
      (fun q => mapGet_mapUpdate askCmp_strict _ _ _ _)
      (fun id => countP_mapOrders_mapUpdate _ _ _ _)
    simpa [add_order, hB, levelAt] using h

theorem modify_order_step {b : OrderBook} (hwf : b.WF) {id : Int} {e : Order}
    (he : b.order_map id = some e) (sz : Int) :
    LevelStep b (modify_order b id sz) (decide (e.side = 'B')) e.price
        (setFirstSize id sz (levelAt b e.side e.price)) ∧
      (modify_order b id sz).order_map = indexSet b.order_map id { e with size := sz } := by
  by_cases hB : e.side = 'B'
  · have h := levelStep_bids hwf e.price (setFirstSize id sz (mapGet bidCmp e.price b.bids))
      (mapUpdate bidCmp e.price (setFirstSize id sz) b.bids)
      (indexSet b.order_map id { e with size := sz })
      (sortedBy_mapUpdate bidCmp_strict _ _ hwf.1)
      (fun q => mapGet_mapUpdate bidCmp_strict _ _ _ _)
      (fun id => countP_mapOrders_mapUpdate _ _ _ _)
    simpa [modify_order, he, hB, levelAt] using h
  · have h := levelStep_asks hwf e.price (setFirstSize id sz (mapGet askCmp e.price b.asks))
      (mapUpdate askCmp e.price (setFirstSize id sz) b.asks)
      (indexSet b.order_map id { e with size := sz })
      (sortedBy_mapUpdate askCmp_strict _ _ hwf.2)
      (fun q => mapGet_mapUpdate askCmp_strict _ _ _ _)
      (fun id => countP_mapOrders_mapUpdate _ _ _ _)
    simpa [modify_order, he, hB, levelAt] using h

theorem cancel_order_step {b : OrderBook} (hwf : b.WF) {id : Int} {e : Order}
    (he : b.order_map id = some e) :
    LevelStep b (cancel_order b id) (decide (e.side = 'B')) e.price
        (removeId id (levelAt b e.side e.price)) ∧
      (cancel_order b id).order_map = indexErase b.order_map id := by
  by_cases hB : e.side = 'B'
  · have h := levelStep_bids hwf e.price (removeId id (mapGet bidCmp e.price b.bids))
      (eraseIfEmpty bidCmp e.price (mapUpdate bidCmp e.price (removeId id) b.bids))
      (indexErase b.order_map id)
      (sortedBy_eraseIfEmpty _ (sortedBy_mapUpdate bidCmp_strict _ _ hwf.1))
      (fun q => mapGet_update_erase bidCmp_strict _ _ _ hwf.1)
      (fun id => idCount_update_erase _ _ _ _)
    simpa [cancel_order, he, hB, levelAt] using h
  · have h := levelStep_asks hwf e.price (removeId id (mapGet askCmp e.price b.asks))
      (eraseIfEmpty askCmp e.price (mapUpdate askCmp e.price (removeId id) b.asks))
      (indexErase b.order_map id)
      (sortedBy_eraseIfEmpty _ (sortedBy_mapUpdate askCmp_strict _ _ hwf.2))
      (fun q => mapGet_update_erase askCmp_strict _ _ _ hwf.2)
      (fun id => idCount_update_erase _ _ _ _)
    simpa [cancel_order, he, hB, levelAt] using h

theorem apply_trade_step_A {b : OrderBook} (hwf : b.WF) (p : Price) (n : Int)
    {L : List Order} (hL : mapFind bidCmp p b.bids = some L) :
    LevelStep b (apply_trade b p n 'A') true p (consume L n b.order_map).1 ∧
      (apply_trade b p n 'A').order_map = (consume L n b.order_map).2 := by
  have h := levelStep_bids hwf p (consume L n b.order_map).1
      (eraseIfEmpty bidCmp p (mapUpdate bidCmp p (fun _ => (consume L n b.order_map).1) b.bids))
      (consume L n b.order_map).2
      (sortedBy_eraseIfEmpty _ (sortedBy_mapUpdate bidCmp_strict _ _ hwf.1))
      (fun q => mapGet_update_erase bidCmp_strict _ _ _ hwf.1)
      (fun id => idCount_update_erase _ _ _ _)
  simpa [apply_trade, hL] using h

theorem apply_trade_step_B {b : OrderBook} (hwf : b.WF) (p : Price) (n : Int)
    {L : List Order} (hL : mapFind askCmp p b.asks = some L) :
    LevelStep b (apply_trade b p n 'B') false p (consume L n b.order_map).1 ∧
      (apply_trade b p n 'B').order_map = (consume L n b.order_map).2 := by
  have h := levelStep_asks hwf p (consume L n b.order_map).1
      (eraseIfEmpty askCmp p (mapUpdate askCmp p (fun _ => (consume L n b.order_map).1) b.asks))
      (consume L n b.order_map).2
      (sortedBy_eraseIfEmpty _ (sortedBy_mapUpdate askCmp_strict _ _ hwf.2))
      (fun q => mapGet_update_erase askCmp_strict _ _ _ hwf.2)
      (fun id => idCount_update_erase _ _ _ _)
  have hBA : ¬ (('B' : Char) = 'A') := by decide
  simpa [apply_trade, hL, hBA] using h

theorem apply_trade_cases (b : OrderBook) (p : Price) (n : Int) (side : Char) :
    apply_trade b p n side = b ∨
    (side = 'A' ∧ ∃ L, mapFind bidCmp p b.bids = some L) ∨
    (side = 'B' ∧ ∃ L, mapFind askCmp p b.asks = some L) := by
  by_cases hA : side = 'A'
  · subst hA
    cases hL : mapFind bidCmp p b.bids with
    | none => left; simp [apply_trade, hL]
    | some L => right; left; exact ⟨rfl, L, rfl⟩
  · by_cases hB : side = 'B'
    · subst hB
      cases hL : mapFind askCmp p b.asks with
      | none => left; simp [apply_trade, hL, hA]
      | some L => right; right; exact ⟨rfl, L, rfl⟩
    · left; simp [apply_trade, hA, hB]

/-! ### Lists of orders -/

theorem idCount_append (id : Int) (l1 l2 : List Order) :
    idCount id (l1 ++ l2) = idCount id l1 + idCount id l2 := by
  simp [idCount, List.countP_append]

theorem idCount_cons (id : Int) (o : Order) (l : List Order) :
    idCount id (o :: l) = idCount id l + if o.order_id = id then 1 else 0 := by
  simp [idCount, List.countP_cons]

theorem idCount_pos_iff {id : Int} {l : List Order} :
    0 < idCount id l ↔ ∃ o ∈ l, o.order_id = id := by
  simp [idCount, List.countP_pos_iff]

theorem idCount_eq_zero_iff {id : Int} {l : List Order} :
    idCount id l = 0 ↔ ∀ o ∈ l, o.order_id ≠ id := by
  simp [idCount, List.countP_eq_zero]

theorem eq_of_idCount_le_one {id : Int} {l : List Order} (h : idCount id l ≤ 1)
    {o1 o2 : Order} (h1 : o1 ∈ l) (h2 : o2 ∈ l) (e1 : o1.order_id = id)
    (e2 : o2.order_id = id) : o1 = o2 := by
  induction l with
  | nil => simp at h1
  | cons x tl ih =>
    rw [idCount_cons] at h
    rcases List.mem_cons.1 h1 with rfl | h1' <;> rcases List.mem_cons.1 h2 with rfl | h2'
    · rfl
    · have : 0 < idCount id tl := idCount_pos_iff.2 ⟨o2, h2', e2⟩
      simp [e1] at h; omega
    · have : 0 < idCount id tl := idCount_pos_iff.2 ⟨o1, h1', e1⟩
      simp [e2] at h; omega
    · exact ih (by omega) h1' h2'

theorem idCount_setFirstSize (j i : Int) (s : Int) (l : List Order) :
    idCount j (setFirstSize i s l) = idCount j l := by
  induction l with
  | nil => rfl
  | cons x tl ih =>
    simp only [setFirstSize]
    split
    · simp [idCount_cons]
    · simp [idCount_cons, ih]

theorem mem_setFirstSize_of_ne {i : Int} {s : Int} {l : List Order} {o : Order}
    (h : o ∈ l) (hne : o.order_id ≠ i) : o ∈ setFirstSize i s l := by
  induction l with
  | nil => simp at h
  | cons x tl ih =>
    simp only [setFirstSize]
    split
    · rename_i hx
      rcases List.mem_cons.1 h with rfl | h'
      · exact absurd hx hne
      · exact List.mem_cons_of_mem _ h'
    · rcases List.mem_cons.1 h with rfl | h'
      · exact List.mem_cons_self _ _
      · exact List.mem_cons_of_mem _ (ih h')

theorem exists_mem_setFirstSize {i : Int} (s : Int) {l : List Order}
    (h : ∃ o ∈ l, o.order_id = i) :
    ∃ o ∈ setFirstSize i s l, o.order_id = i ∧ o.size = s := by
  induction l with
  | nil => simp at h
  | cons x tl ih =>
    simp only [setFirstSize]
    split
    · rename_i hx
      exact ⟨_, List.mem_cons_self _ _, hx, rfl⟩
    · rename_i hx
      obtain ⟨o, ho, hoi⟩ := h
      rcases List.mem_cons.1 ho with rfl | h'
      · exact absurd hoi hx
      · obtain ⟨o', ho', h1, h2⟩ := ih ⟨o, h', hoi⟩
        exact ⟨o', List.mem_cons_of_mem _ ho', h1, h2⟩

theorem idCount_removeId_self (i : Int) (l : List Order) : idCount i (removeId i l) = 0 := by
  rw [idCount_eq_zero_iff]
  intro o ho
  simp only [removeId, List.mem_filter] at ho
  simpa using ho.2

theorem idCount_removeId_ne {i j : Int} (hne : j ≠ i) (l : List Order) :
    idCount j (removeId i l) = idCount j l := by
  induction l with
  | nil => rfl
  | cons x tl ih =>
    by_cases hx : x.order_id = i
    · have : ¬ i = j := fun h => hne h.symm
      simp only [removeId] at ih
      simp [removeId, List.filter_cons, hx, idCount_cons, this, ih]
    · simp only [removeId] at ih
      simp [removeId, List.filter_cons, hx, idCount_cons, ih]

theorem mem_removeId {i : Int} {l : List Order} {o : Order} :
    o ∈ removeId i l ↔ o ∈ l ∧ o.order_id ≠ i := by
  simp [removeId, List.mem_filter]

theorem eraseIds_indexErase (om : OrderIndex) (i : Int) (ids : List Int) :
    eraseIds (indexErase om i) ids = eraseIds om (i :: ids) := by
  funext j
  by_cases h1 : j = i <;> by_cases h2 : j ∈ ids <;> simp [eraseIds, indexErase, h1, h2]

/-- Shape of the result of the consuming loop: a prefix of the level is removed
and its ids erased from the index; then either the rest is left as it is, or
its front order is reduced by the positive remainder, in the level and in the
index. -/
theorem consume_shape (L : List Order) (n : Int) (om : OrderIndex) :
    ∃ pre post, L = pre ++ post ∧
      (consume L n om = (post, eraseIds om (pre.map (fun o => o.order_id))) ∨
       ∃ o rest r, post = o :: rest ∧ 0 < r ∧ r < o.size ∧
         consume L n om = ({ o with size := o.size - r } :: rest,
           indexSetSize (eraseIds om (pre.map (fun o => o.order_id))) o.order_id
             (o.size - r))) := by
  induction L generalizing n om with
  | nil =>
    have : eraseIds om [] = om := by funext j; simp [eraseIds]
    exact ⟨[], [], rfl, Or.inl (by simp [consume, this])⟩
  | cons x tl ih =>
    by_cases hn : 0 < n
    · by_cases hx : x.size ≤ n
      · obtain ⟨pre, post, hsplit, h⟩ := ih (n - x.size) (indexErase om x.order_id)
        refine ⟨x :: pre, post, by simp [hsplit], ?_⟩
        simp only [consume, hn, hx, if_true, List.map_cons]
        rw [← eraseIds_indexErase]
        exact h
      · refine ⟨[], x :: tl, rfl, Or.inr ⟨x, tl, n, rfl, hn, by omega, ?_⟩⟩
        have : eraseIds om [] = om := by funext j; simp [eraseIds]
        simp [consume, hn, hx, this]
    · refine ⟨[], x :: tl, rfl, Or.inl ?_⟩
      have : eraseIds om [] = om := by funext j; simp [eraseIds]
      simp [consume, hn, this]

/-! ### Index/level consistency, identifier by identifier -/

theorem countId_eq (b : OrderBook) (id : Int) : countId b id = idCount id (allOrders b) := rfl

theorem mem_allOrders_iff {b : OrderBook} {o : Order} :
    o ∈ allOrders b ↔ ∃ p lvl, ((p, lvl) ∈ b.bids ∨ (p, lvl) ∈ b.asks) ∧ o ∈ lvl := by
  simp only [allOrders, List.mem_append, mem_mapOrders_iff]
  constructor
  · rintro (⟨p, lvl, h1, h2⟩ | ⟨p, lvl, h1, h2⟩)
    · exact ⟨p, lvl, Or.inl h1, h2⟩
    · exact ⟨p, lvl, Or.inr h1, h2⟩
  · rintro ⟨p, lvl, h1 | h1, h2⟩
    · exact Or.inl ⟨p, lvl, h1, h2⟩
    · exact Or.inr ⟨p, lvl, h1, h2⟩

theorem consistent_iff (b : OrderBook) : Consistent b ↔ ∀ id, IdOK b id := by
  constructor
  · rintro ⟨h1, h2⟩ id
    refine ⟨?_, h1 id⟩
    intro hnone
    rw [countId_eq, idCount_eq_zero_iff]
    intro o ho hid
    obtain ⟨p, lvl, hmem, hol⟩ := mem_allOrders_iff.1 ho
    exact h2 p lvl hmem o hol (hid ▸ hnone)
  · intro h
    refine ⟨fun id e he => (h id).2 e he, ?_⟩
    intro p lvl hmem o ho hnone
    have h0 := (h o.order_id).1 hnone
    rw [countId_eq, idCount_eq_zero_iff] at h0
    exact h0 o (mem_allOrders_iff.2 ⟨p, lvl, hmem, ho⟩) rfl

theorem levelAt_sideOf (b : OrderBook) {s : Char} {tb : Bool} (h : decide (s = 'B') = tb)
    (p : Price) : levelAt b (sideOf tb) p = levelAt b s p := by
  subst h
  by_cases hs : s = 'B'
  · simp [levelAt, sideOf, hs]
  · have hA : ¬ (('A' : Char) = 'B') := by decide
    simp [levelAt, sideOf, hs, hA]

theorem mem_allOrders_of_mem_levelAt {b : OrderBook} {s : Char} {p : Price} {o : Order}
    (h : o ∈ levelAt b s p) : o ∈ allOrders b := by
  unfold levelAt at h
  unfold allOrders
  split at h
  · exact List.mem_append_left _ (mem_mapOrders_of_mem_mapGet h)
  · exact List.mem_append_right _ (mem_mapOrders_of_mem_mapGet h)

theorem idCount_levelAt_le (b : OrderBook) (id : Int) (s : Char) (p : Price) :
    idCount id (levelAt b s p) ≤ countId b id := by
  rw [countId_eq]
  unfold levelAt allOrders
  rw [idCount_append]
  split
  · have := @idCount_mapGet_le bidCmp id p b.bids; omega
  · have := @idCount_mapGet_le askCmp id p b.asks; omega

theorem idCount_two_levelAt {b : OrderBook} (hwf : b.WF) (id : Int) {s1 s2 : Char}
    {p1 p2 : Price} (hne : ¬ (decide (s1 = 'B') = decide (s2 = 'B') ∧ p1 = p2)) :
    idCount id (levelAt b s1 p1) + idCount id (levelAt b s2 p2) ≤ countId b id := by
  rw [countId_eq]
  unfold allOrders
  rw [idCount_append]
  have hb1 := @idCount_mapGet_le bidCmp id p1 b.bids
  have hb2 := @idCount_mapGet_le bidCmp id p2 b.bids
  have ha1 := @idCount_mapGet_le askCmp id p1 b.asks
  have ha2 := @idCount_mapGet_le askCmp id p2 b.asks
  by_cases h1 : s1 = 'B' <;> by_cases h2 : s2 = 'B'
  · have hp : p2 ≠ p1 := fun h => hne ⟨by simp [h1, h2], h.symm⟩
    have := idCount_two_levels bidCmp_strict id hp hwf.1
    simp only [levelAt, h1, h2, if_true]; omega
  · simp only [levelAt, h1, h2, if_true, if_false]; omega
  · simp only [levelAt, h1, h2, if_true, if_false]; omega
  · have hp : p2 ≠ p1 := fun h => hne ⟨by simp [h1, h2], h.symm⟩
    have := idCount_two_levels askCmp_strict id hp hwf.2
    simp only [levelAt, h1, h2, if_false]; omega

theorem same_level_of_count_le_one {b : OrderBook} (hwf : b.WF) {id : Int}
    (hc : countId b id ≤ 1) {s1 s2 : Char} {p1 p2 : Price} {w1 w2 : Order}
    (h1 : w1 ∈ levelAt b s1 p1) (e1 : w1.order_id = id)
    (h2 : w2 ∈ levelAt b s2 p2) (e2 : w2.order_id = id) :
    decide (s1 = 'B') = decide (s2 = 'B') ∧ p1 = p2 := by
  by_contra hne
  have := idCount_two_levelAt hwf id hne
  have c1 : 0 < idCount id (levelAt b s1 p1) := idCount_pos_iff.2 ⟨w1, h1, e1⟩
  have c2 : 0 < idCount id (levelAt b s2 p2) := idCount_pos_iff.2 ⟨w2, h2, e2⟩
  omega

/-- An identifier whose index entry and whose orders in the updated level are
untouched stays consistent. -/
theorem idOK_frame {b b' : OrderBook} {tb : Bool} {p : Price} {L' : List Order}
    (step : LevelStep b b' tb p L') (id : Int)
    (hcnt : idCount id L' = idCount id (levelAt b (sideOf tb) p))
    (hmem : ∀ w ∈ levelAt b (sideOf tb) p, w.order_id = id →
      ∃ w' ∈ L', w'.order_id = id ∧ w'.size = w.size)
    (hom : b'.order_map id = b.order_map id) (h : IdOK b id) : IdOK b' id := by
  have hc := step.count id
  have hc' : countId b' id = countId b id := by omega
  refine ⟨fun hn => ?_, fun e he => ?_⟩
  · rw [hc']; exact h.1 (hom ▸ hn)
  · rw [hom] at he
    obtain ⟨h1, w, hw, hwid, hws⟩ := h.2 e he
    refine ⟨by rw [hc']; exact h1, ?_⟩
    rw [step.get]
    by_cases hloc : decide (e.side = 'B') = tb ∧ e.price = p
    · rw [if_pos hloc]
      have : levelAt b (sideOf tb) p = levelAt b e.side e.price := by
        rw [← hloc.2]; exact levelAt_sideOf b hloc.1 _
      obtain ⟨w', hw', h1', h2'⟩ := hmem w (this ▸ hw) hwid
      exact ⟨w', hw', h1', h2'.trans hws⟩
    · rw [if_neg hloc]
      exact ⟨w, hw, hwid, hws⟩

theorem idOK_add_order {b : OrderBook} (hwf : b.WF) (h : ∀ id, IdOK b id) (o : Order)
    (hfresh : b.order_map o.order_id = none) : ∀ id, IdOK (add_order b o) id := by
  obtain ⟨step, hom⟩ := add_order_step hwf o
  have hL := levelAt_sideOf b (rfl : decide (o.side = 'B') = decide (o.side = 'B')) o.price
  intro id
  by_cases hid : id = o.order_id
  · subst hid
    have hc := step.count o.order_id
    rw [hL, idCount_append, idCount_cons, (h o.order_id).1 hfresh] at hc
    simp only [idCount, List.countP_nil, if_true] at hc
    refine ⟨fun hn => ?_, fun e he => ?_⟩
    · rw [hom] at hn; simp [indexSet] at hn
    · rw [hom] at he
      simp only [indexSet, if_true, Option.some.injEq] at he
      subst he
      refine ⟨by omega, o, ?_, rfl, rfl⟩
      rw [step.get]; simp
  · refine idOK_frame step id ?_ ?_ ?_ (h id)
    · rw [hL, idCount_append, idCount_cons]
      have : ¬ o.order_id = id := fun h => hid h.symm
      simp [this, idCount]
    · intro w hw hwid
      rw [hL] at hw
      exact ⟨w, List.mem_append_left _ hw, hwid, rfl⟩
    · rw [hom]; simp [indexSet, hid]

theorem idOK_modify_order {b : OrderBook} (hwf : b.WF) (h : ∀ id, IdOK b id) (i : Int)
    (sz : Int) : ∀ id, IdOK (modify_order b i sz) id := by
  cases he : b.order_map i with
  | none => simpa [modify_order, he] using h
  | some e =>
    obtain ⟨step, hom⟩ := modify_order_step hwf he sz
    have hL := levelAt_sideOf b (rfl : decide (e.side = 'B') = decide (e.side = 'B')) e.price
    obtain ⟨hc1, w, hw, hwid, _⟩ := (h i).2 e he
    intro id
    by_cases hid : id = i
    · subst hid
      have hc := step.count id
      rw [idCount_setFirstSize, hL] at hc
      refine ⟨fun hn => ?_, fun e' he' => ?_⟩
      · rw [hom] at hn; simp [indexSet] at hn
      · rw [hom] at he'
        simp only [indexSet, if_true, Option.some.injEq] at he'
        subst he'
        refine ⟨by omega, ?_⟩
        rw [step.get]
        simp only [and_self, if_true]
        simpa using exists_mem_setFirstSize sz ⟨w, hw, hwid⟩
    · refine idOK_frame step id ?_ ?_ ?_ (h id)
      · rw [idCount_setFirstSize, hL]
      · intro w' hw' hw'id
        rw [hL] at hw'
        exact ⟨w', mem_setFirstSize_of_ne hw' (by rw [hw'id]; exact hid), hw'id, rfl⟩
      · rw [hom]; simp [indexSet, hid]

theorem idOK_cancel_order {b : OrderBook} (hwf : b.WF) (h : ∀ id, IdOK b id) (i : Int) :
    ∀ id, IdOK (cancel_order b i) id := by
  cases he : b.order_map i with
  | none => simpa [cancel_order, he] using h
  | some e =>
    obtain ⟨step, hom⟩ := cancel_order_step hwf he
    have hL := levelAt_sideOf b (rfl : decide (e.side = 'B') = decide (e.side = 'B')) e.price
    obtain ⟨hc1, w, hw, hwid, _⟩ := (h i).2 e he
    intro id
    by_cases hid : id = i
    · subst hid
      have hc := step.count id
      rw [idCount_removeId_self, hL] at hc
      have hpos : 0 < idCount id (levelAt b e.side e.price) := idCount_pos_iff.2 ⟨w, hw, hwid⟩
      refine ⟨fun _ => by omega, fun e' he' => ?_⟩
      rw [hom] at he'; simp [indexErase] at he'
    · refine idOK_frame step id ?_ ?_ ?_ (h id)
      · rw [idCount_removeId_ne hid, hL]
      · intro w' hw' hw'id
        rw [hL] at hw'
        exact ⟨w', mem_removeId.2 ⟨hw', by rw [hw'id]; exact hid⟩, hw'id, rfl⟩
      · rw [hom]; simp [indexErase, hid]

theorem indexed_of_mem_levelAt {b : OrderBook} (h : ∀ id, IdOK b id) {s : Char} {p : Price}
    {o : Order} (ho : o ∈ levelAt b s p) :
    countId b o.order_id = 1 ∧ ∃ e, b.order_map o.order_id = some e := by
  have hpos : 0 < idCount o.order_id (levelAt b s p) := idCount_pos_iff.2 ⟨o, ho, rfl⟩
  have hle := idCount_levelAt_le b o.order_id s p
  cases he : b.order_map o.order_id with
  | none => have := (h o.order_id).1 he; omega
  | some e => exact ⟨((h o.order_id).2 e he).1, e, rfl⟩

theorem idOK_consume {b b' : OrderBook} (hwf : b.WF) (h : ∀ id, IdOK b id) {tb : Bool}
    {p : Price} {L : List Order} (n : Int) (hL : levelAt b (sideOf tb) p = L)
    (step : LevelStep b b' tb p (consume L n b.order_map).1)
    (hom : b'.order_map = (consume L n b.order_map).2) : ∀ id, IdOK b' id := by
  obtain ⟨pre, post, hsplit, hshape⟩ := consume_shape L n b.order_map
  intro id
  have hc := step.count id
  rw [hL] at hc
  have hLcount : idCount id L = idCount id pre + idCount id post := by
    rw [hsplit, idCount_append]
  have hle : idCount id L ≤ countId b id := hL ▸ idCount_levelAt_le b id (sideOf tb) p
  by_cases hpre : ∃ o ∈ pre, o.order_id = id
  · -- an id of the removed prefix
    obtain ⟨o, ho, hoid⟩ := hpre
    have hoL : o ∈ levelAt b (sideOf tb) p := by
      rw [hL, hsplit]; exact List.mem_append_left _ ho
    have hcnt1 : countId b id = 1 := hoid ▸ (indexed_of_mem_levelAt h hoL).1
    have hprepos : 0 < idCount id pre := idCount_pos_iff.2 ⟨o, ho, hoid⟩
    have hpost0 : idCount id post = 0 := by omega
    have hmemids : id ∈ pre.map (fun o => o.order_id) := List.mem_map.2 ⟨o, ho, hoid⟩
    rcases hshape with hA | ⟨o1, rest, r, hpost, _, _, hB⟩
    · rw [hA] at hc hom
      simp only at hc hom
      have hnone : b'.order_map id = none := by rw [hom]; simp [eraseIds, hmemids]
      refine ⟨fun _ => by omega, fun e he => ?_⟩
      rw [hnone] at he; exact absurd he (by simp)
    · rw [hB] at hc hom
      simp only at hc hom
      have hne : o1.order_id ≠ id := by
        rw [idCount_eq_zero_iff] at hpost0
        exact hpost0 o1 (hpost ▸ List.mem_cons_self _ _)
      have hL'0 : idCount id ({ o1 with size := o1.size - r } :: rest) = 0 := by
        rw [hpost, idCount_cons] at hpost0
        rw [idCount_cons]; exact hpost0
      have hnone : b'.order_map id = none := by
        rw [hom]
        have : ¬ id = o1.order_id := fun h => hne h.symm
        simp [indexSetSize, indexSet, this, eraseIds, hmemids]
      refine ⟨fun _ => by omega, fun e he => ?_⟩
      rw [hnone] at he; exact absurd he (by simp)
  · -- an id that is not in the removed prefix
    have hpre0 : idCount id pre = 0 := by
      rw [idCount_eq_zero_iff]; intro o ho hoid; exact hpre ⟨o, ho, hoid⟩
    have hnotmem : id ∉ pre.map (fun o => o.order_id) := by
      intro hm; obtain ⟨o, ho, hoid⟩ := List.mem_map.1 hm; exact hpre ⟨o, ho, hoid⟩
    have hinpost : ∀ w ∈ L, w.order_id = id → w ∈ post := by
      intro w hw hwid
      rw [hsplit] at hw
      rcases List.mem_append.1 hw with h1 | h1
      · exact absurd ⟨w, h1, hwid⟩ hpre
      · exact h1
    rcases hshape with hA | ⟨o1, rest, r, hpost, _, _, hB⟩
    · refine idOK_frame step id ?_ ?_ ?_ (h id)
      · rw [hA, hL]; simp only; omega
      · intro w hw hwid
        rw [hL] at hw
        rw [hA]
        exact ⟨w, hinpost w hw hwid, hwid, rfl⟩
      · rw [hom, hA]; simp [eraseIds, hnotmem]
    · by_cases hid : o1.order_id = id
      · -- the partially filled front order
        have hL' : (consume L n b.order_map).1 = { o1 with size := o1.size - r } :: rest := by
          rw [hB]
        have ho1L : o1 ∈ levelAt b (sideOf tb) p := by
          rw [hL, hsplit, hpost]
          exact List.mem_append_right _ (List.mem_cons_self _ _)
        obtain ⟨hcnt1, e, he⟩ := indexed_of_mem_levelAt h ho1L
        rw [hid] at hcnt1 he
        obtain ⟨_, w, hw, hwid, _⟩ := (h id).2 e he
        have hloc := same_level_of_count_le_one hwf (le_of_eq hcnt1) hw hwid ho1L hid
        have hsideOf : decide (sideOf tb = 'B') = tb := by
          cases tb <;> simp [sideOf]
        have hcount' : idCount id ({ o1 with size := o1.size - r } :: rest) = idCount id post := by
          rw [hpost, idCount_cons, idCount_cons]
        have hnew : b'.order_map id = some { e with size := o1.size - r } := by
          rw [hom, hB]
          simp [indexSetSize, indexSet, hid, eraseIds, hnotmem, he]
        refine ⟨fun hn => ?_, fun e' he' => ?_⟩
        · rw [hnew] at hn; exact absurd hn (by simp)
        · rw [hnew] at he'
          simp only [Option.some.injEq] at he'
          subst he'
          rw [hL'] at hc
          refine ⟨by omega, ?_⟩
          rw [step.get, hL']
          simp only
          rw [if_pos ⟨hloc.1.trans hsideOf, hloc.2⟩]
          exact ⟨_, List.mem_cons_self _ _, hid, rfl⟩
      · refine idOK_frame step id ?_ ?_ ?_ (h id)
        · rw [hB, hL]; simp only
          rw [hLcount, hpost, idCount_cons, idCount_cons]; simp only; omega
        · intro w hw hwid
          rw [hL] at hw
          rw [hB]
          have hwp := hinpost w hw hwid
          rw [hpost] at hwp
          rcases List.mem_cons.1 hwp with rfl | hr
          · exact absurd hwid hid
          · exact ⟨w, List.mem_cons_of_mem _ hr, hwid, rfl⟩
        · rw [hom, hB]
          have : ¬ id = o1.order_id := fun h => hid h.symm
          simp [indexSetSize, indexSet, this, eraseIds, hnotmem]

theorem mapGet_of_mapFind {cmp : Price → Price → Bool} {p : Price} {m : LevelMap}
    {L : List Order} (h : mapFind cmp p m = some L) : mapGet cmp p m = L := by
  simp [mapGet, h]

theorem idOK_apply_trade {b : OrderBook} (hwf : b.WF) (h : ∀ id, IdOK b id) (p : Price)
    (n : Int) (side : Char) : ∀ id, IdOK (apply_trade b p n side) id := by
  rcases apply_trade_cases b p n side with h0 | ⟨rfl, L, hL⟩ | ⟨rfl, L, hL⟩
  · rw [h0]; exact h
  · obtain ⟨step, hom⟩ := apply_trade_step_A hwf p n hL
    exact idOK_consume hwf h n (by simp [levelAt, sideOf, mapGet_of_mapFind hL]) step hom
  · obtain ⟨step, hom⟩ := apply_trade_step_B hwf p n hL
    have hA : ¬ (('A' : Char) = 'B') := by decide
    exact idOK_consume hwf h n (by simp [levelAt, sideOf, hA, mapGet_of_mapFind hL]) step hom

/-! ### Well-formedness of the maps is preserved -/

theorem wf_emptyBook : emptyBook.WF := by
  simp [OrderBook.WF, emptyBook, SortedBy]

theorem wf_add_order {b : OrderBook} (hwf : b.WF) (o : Order) : (add_order b o).WF :=
  (add_order_step hwf o).1.wf

theorem wf_modify_order {b : OrderBook} (hwf : b.WF) (i : Int) (sz : Int) :
    (modify_order b i sz).WF := by
  cases he : b.order_map i with
  | none => simpa [modify_order, he] using hwf
  | some e => exact (modify_order_step hwf he sz).1.wf

theorem wf_cancel_order {b : OrderBook} (hwf : b.WF) (i : Int) : (cancel_order b i).WF := by
  cases he : b.order_map i with
  | none => simpa [cancel_order, he] using hwf
  | some e => exact (cancel_order_step hwf he).1.wf

theorem wf_apply_trade {b : OrderBook} (hwf : b.WF) (p : Price) (n : Int) (side : Char) :
    (apply_trade b p n side).WF := by
  rcases apply_trade_cases b p n side with h0 | ⟨rfl, L, hL⟩ | ⟨rfl, L, hL⟩
  · rw [h0]; exact hwf
  · exact (apply_trade_step_A hwf p n hL).1.wf
  · exact (apply_trade_step_B hwf p n hL).1.wf

theorem wf_applyCall {b : OrderBook} (hwf : b.WF) (c : BookCall) : (applyCall b c).WF := by
  cases c with
  | add_order o => exact wf_add_order hwf o
  | modify_order i sz => exact wf_modify_order hwf i sz
  | cancel_order i => exact wf_cancel_order hwf i
  | apply_trade p n s => exact wf_apply_trade hwf p n s
  | clear => exact wf_emptyBook

theorem wf_runCalls {b : OrderBook} (hwf : b.WF) (calls : List BookCall) :
    (runCalls b calls).WF := by
  induction calls generalizing b with
  | nil => exact hwf
  | cons c rest ih => exact ih (wf_applyCall hwf c)

theorem idOK_emptyBook : ∀ id, IdOK emptyBook id := by
  intro id
  refine ⟨fun _ => rfl, fun e he => ?_⟩
  simp [emptyBook] at he

theorem idOK_runCalls {b : OrderBook} (hwf : b.WF) (h : ∀ id, IdOK b id)
    (calls : List BookCall) (hfresh : FreshAdds b calls) :
    ∀ id, IdOK (runCalls b calls) id := by
  induction calls generalizing b with
  | nil => exact h
  | cons c rest ih =>
    cases c with
    | add_order o =>
      exact ih (wf_add_order hwf o) (idOK_add_order hwf h o hfresh.1) hfresh.2
    | modify_order i sz =>
      exact ih (wf_modify_order hwf i sz) (idOK_modify_order hwf h i sz) hfresh
    | cancel_order i =>
      exact ih (wf_cancel_order hwf i) (idOK_cancel_order hwf h i) hfresh
    | apply_trade p n s =>
      exact ih (wf_apply_trade hwf p n s) (idOK_apply_trade hwf h p n s) hfresh
    | clear =>
      exact ih wf_emptyBook idOK_emptyBook hfresh

/-! ### The consuming loop -/

theorem totalSize_foldl (acc : Int) (l : List Order) :
    l.foldl (fun a o => a + o.size) acc = acc + totalSize l := by
  induction l generalizing acc with
  | nil => simp [totalSize]
  | cons x tl ih =>
    simp only [totalSize, List.foldl_cons]
    rw [ih, ih (0 + x.size)]
    omega

theorem totalSize_nil : totalSize [] = 0 := rfl

theorem totalSize_cons (o : Order) (l : List Order) :
    totalSize (o :: l) = o.size + totalSize l := by
  simp only [totalSize, List.foldl_cons]
  rw [totalSize_foldl]
  simp [totalSize]

theorem totalSize_nonneg {l : List Order} (h : ∀ o ∈ l, 0 ≤ o.size) : 0 ≤ totalSize l := by
  induction l with
  | nil => simp [totalSize_nil]
  | cons x tl ih =>
    rw [totalSize_cons]
    have := h x (List.mem_cons_self _ _)
    have := ih (fun o ho => h o (List.mem_cons_of_mem _ ho))
    omega

theorem totalSize_consume {L : List Order} (hnn : ∀ o ∈ L, 0 ≤ o.size) {n : Int}
    (hn : 0 ≤ n) (om : OrderIndex) :
    totalSize (consume L n om).1 = totalSize L - min n (totalSize L) := by
  induction L generalizing n om with
  | nil => simp [consume, totalSize_nil, hn]
  | cons x tl ih =>
    have hx := hnn x (List.mem_cons_self _ _)
    have htl := totalSize_nonneg (fun o ho => hnn o (List.mem_cons_of_mem _ ho))
    by_cases hpos : 0 < n
    · by_cases hle : x.size ≤ n
      · simp only [consume, hpos, hle, if_true]
        rw [ih (fun o ho => hnn o (List.mem_cons_of_mem _ ho)) (by omega), totalSize_cons]
        omega
      · simp only [consume, hpos, hle, if_true, if_false, totalSize_cons]
        omega
    · have h0 : n = 0 := by omega
      subst h0
      simp only [consume, lt_irrefl, if_false, totalSize_cons]
      omega

theorem levelAt_bids (b : OrderBook) (p : Price) : levelAt b 'B' p = mapGet bidCmp p b.bids := by
  simp [levelAt]

theorem levelAt_asks (b : OrderBook) (p : Price) : levelAt b 'A' p = mapGet askCmp p b.asks := by
  have hA : ¬ (('A' : Char) = 'B') := by decide
  simp [levelAt, hA]

theorem mapGet_bids_apply_trade {b : OrderBook} (hwf : b.WF) (p : Price) (n : Int)
    {L : List Order} (hL : mapFind bidCmp p b.bids = some L) :
    mapGet bidCmp p (apply_trade b p n 'A').bids = (consume L n b.order_map).1 := by
  have h := (apply_trade_step_A hwf p n hL).1.get 'B' p
  rw [levelAt_bids] at h
  simpa using h

theorem mapGet_asks_apply_trade {b : OrderBook} (hwf : b.WF) (p : Price) (n : Int)
    {L : List Order} (hL : mapFind askCmp p b.asks = some L) :
    mapGet askCmp p (apply_trade b p n 'B').asks = (consume L n b.order_map).1 := by
  have h := (apply_trade_step_B hwf p n hL).1.get 'A' p
  rw [levelAt_asks] at h
  have hA : ¬ (('A' : Char) = 'B') := by decide
  simpa [hA] using h

/-- In a consistent book the index and the level agree on the size of every
resting order. -/
theorem index_size_of_mem_levelAt {b : OrderBook} (hwf : b.WF) (h : ∀ id, IdOK b id)
    {s : Char} {p : Price} {o : Order} (ho : o ∈ levelAt b s p) :
    ∃ e, b.order_map o.order_id = some e ∧ e.size = o.size := by
  obtain ⟨hc, e, he⟩ := indexed_of_mem_levelAt h ho
  obtain ⟨_, w, hw, hwid, hws⟩ := (h o.order_id).2 e he
  have hloc := same_level_of_count_le_one hwf (le_of_eq hc) hw hwid ho rfl
  have hlev : levelAt b e.side e.price = levelAt b s p := by
    rw [hloc.2]
    unfold levelAt
    have := hloc.1
    by_cases h1 : e.side = 'B' <;> by_cases h2 : s = 'B' <;> simp [h1, h2] at this ⊢
  rw [hlev] at hw
  have hle : idCount o.order_id (levelAt b s p) ≤ 1 := hc ▸ idCount_levelAt_le b _ s p
  have : w = o := eq_of_idCount_le_one hle hw ho hwid rfl
  exact ⟨e, he, this ▸ hws.symm⟩

theorem consumed_in_arrival_order {b b' : OrderBook} (hwf : b.WF) (h : ∀ id, IdOK b id)
    {tb : Bool} {p : Price} {L : List Order} (n : Int) (hL : levelAt b (sideOf tb) p = L)
    (step : LevelStep b b' tb p (consume L n b.order_map).1)
    (hom : b'.order_map = (consume L n b.order_map).2) :
    ConsumedInArrivalOrder b.order_map b'.order_map L (consume L n b.order_map).1 := by
  have h' := idOK_consume hwf h n hL step hom
  have hsideOf : decide (sideOf tb = 'B') = tb := by cases tb <;> simp [sideOf]
  have hlev' : levelAt b' (sideOf tb) p = (consume L n b.order_map).1 := by
    rw [step.get]; simp [hsideOf]
  obtain ⟨pre, post, hsplit, hshape⟩ := consume_shape L n b.order_map
  refine ⟨pre, post, hsplit, ?_, ?_, ?_⟩
  · rcases hshape with hA | ⟨o1, rest, r, hpost, hr, _, hB⟩
    · left; rw [hA]
    · right
      exact ⟨o1, rest, { o1 with size := o1.size - r }, hpost, by rw [hB], rfl, rfl, rfl,
        by simp only; omega⟩
  · intro id
    constructor
    · rintro ⟨o, ho, hoid⟩
      have hoL : o ∈ levelAt b (sideOf tb) p := by
        rw [hL, hsplit]; exact List.mem_append_left _ ho
      obtain ⟨hc1, e, he⟩ := indexed_of_mem_levelAt h hoL
      rw [hoid] at hc1 he
      refine ⟨by rw [he]; simp, ?_⟩
      have hle : idCount id L ≤ countId b id := hL ▸ idCount_levelAt_le b id (sideOf tb) p
      have hprepos : 0 < idCount id pre := idCount_pos_iff.2 ⟨o, ho, hoid⟩
      have hpost0 : idCount id post = 0 := by
        rw [hsplit, idCount_append] at hle; omega
      have hmemids : id ∈ pre.map (fun o => o.order_id) := List.mem_map.2 ⟨o, ho, hoid⟩
      rcases hshape with hA | ⟨o1, rest, r, hpost, _, _, hB⟩
      · rw [hom, hA]; simp [eraseIds, hmemids]
      · have hne : ¬ id = o1.order_id := by
          rw [idCount_eq_zero_iff] at hpost0
          exact fun h => hpost0 o1 (hpost ▸ List.mem_cons_self _ _) h.symm
        rw [hom, hB]
        simp [indexSetSize, indexSet, hne, eraseIds, hmemids]
    · rintro ⟨hsome, hnone⟩
      by_contra hpre
      have hnotmem : id ∉ pre.map (fun o => o.order_id) := by
        intro hm; obtain ⟨o, ho, hoid⟩ := List.mem_map.1 hm; exact hpre ⟨o, ho, hoid⟩
      rcases hshape with hA | ⟨o1, rest, r, hpost, _, _, hB⟩
      · rw [hom, hA] at hnone
        simp [eraseIds, hnotmem] at hnone
        exact hsome hnone
      · rw [hom, hB] at hnone
        by_cases hid : id = o1.order_id
        · simp [indexSetSize, indexSet, hid] at hnone
        · simp [indexSetSize, indexSet, hid, eraseIds, hnotmem] at hnone
          exact hsome hnone
  · intro o' ho'
    have hmem : o' ∈ levelAt b' (sideOf tb) p := by
      rw [hlev']
      exact List.mem_of_mem_head? ho'
    exact index_size_of_mem_levelAt step.wf h' hmem

/-! ### Reachable books are well formed and consistent -/

theorem consistent_runCalls (calls : List BookCall) (hfresh : FreshAdds emptyBook calls) :
    Consistent (runCalls emptyBook calls) :=
  (consistent_iff _).2 (idOK_runCalls wf_emptyBook idOK_emptyBook calls hfresh)

theorem sampleBook_wf : sampleBook.WF := wf_runCalls wf_emptyBook _

theorem sampleBook_consistent : Consistent sampleBook :=
  consistent_runCalls _ ⟨rfl, rfl, rfl, trivial⟩

theorem sampleBook_nonneg : NonNegSizes sampleBook := by
  intro o ho
  have : o ∈ [(⟨1, 'B', 100, 10⟩ : Order), ⟨2, 'B', 100, 5⟩, ⟨3, 'A', 101, 7⟩] := ho
  simp only [List.mem_cons, List.mem_singleton, List.not_mem_nil, or_false] at this
  rcases this with rfl | rfl | rfl <;> decide

theorem deepBook_wf : deepBook.WF := wf_runCalls wf_emptyBook _

/-! ### The record loop -/

theorem driverLoop_append (st : Driver) (pre : List MBORecord) (r : MBORecord) :
    driverLoop st (pre ++ [r]) = processRecord (driverLoop st pre) r := by
  simp [driverLoop, List.foldl_append]

theorem processRecord_T (st : Driver) {r : MBORecord} (h : r.action = "T") :
    processRecord st r = { st with first_row := false, pending_records := [r] } := by
  simp [processRecord, h]

theorem processRecord_F_after_T (st : Driver) {t r : MBORecord} (ht : t.action = "T")
    (h : r.action = "F") (hp : st.pending_records = [t]) :
    processRecord st r = { st with first_row := false, pending_records := [t, r] } := by
  simp [processRecord, h, hp, ht]

theorem processRecord_C_triplet (st : Driver) {t f r : MBORecord} (tl : List MBORecord)
    (ht : t.action = "T") (hf : f.action = "F") (h : r.action = "C")
    (hp : st.pending_records = t :: f :: tl) :
    processRecord st r =
      emitSnapshot
        { (if t.side ≠ 'N' then
            { st with
                first_row := false,
                book := apply_trade st.book t.price t.size t.side,
                calls := st.calls ++ [BookCall.apply_trade t.price t.size t.side] }
          else { st with first_row := false }) with pending_records := [] } r := by
  simp [processRecord, h, hp, tripletTrade, ht, hf]

/-- The call log is faithful: one iteration appends `stepCalls` to the log and
changes the book by running exactly these calls. -/
theorem processRecord_calls_book (st : Driver) (r : MBORecord) :
    (processRecord st r).calls = st.calls ++ stepCalls st r ∧
      (processRecord st r).book = runCalls st.book (stepCalls st r) := by
  by_cases h1 : st.first_row = true ∧ r.action = "R"
  · simp [processRecord, stepCalls, h1, runCalls]
  · by_cases h2 : r.action = "T"
    · simp [processRecord, stepCalls, h2, runCalls]
    · by_cases h3 : r.action = "F" ∧
          st.pending_records.getLast?.map (fun r => r.action) = some "T"
      · simp only [processRecord, stepCalls, if_neg h1, if_neg h2, if_pos h3]
        simp [runCalls]
      · simp only [processRecord, stepCalls, if_neg h1, if_neg h2, if_neg h3]
        cases ht : tripletTrade r st.pending_records with
        | some t =>
          simp only []
          split_ifs <;> simp [emitSnapshot, runCalls, applyCall]
        | none =>
          simp only [regularAction, emitSnapshot]
          split_ifs <;> simp [runCalls, applyCall]

theorem processRecord_first_row (st : Driver) (r : MBORecord) :
    (processRecord st r).first_row = false := by
  by_cases h1 : st.first_row = true ∧ r.action = "R"
  · simp [processRecord, h1]
  · by_cases h2 : r.action = "T"
    · simp [processRecord, h2]
    · by_cases h3 : r.action = "F" ∧
          st.pending_records.getLast?.map (fun r => r.action) = some "T"
      · simp only [processRecord, if_neg h1, if_neg h2, if_pos h3]
      · simp only [processRecord, if_neg h1, if_neg h2, if_neg h3]
        cases ht : tripletTrade r st.pending_records with
        | some t =>
          simp only []
          split_ifs <;> simp [emitSnapshot]
        | none =>
          simp only [regularAction, emitSnapshot]
          split_ifs <;> simp

theorem processRecord_pending_other (st : Driver) {r : MBORecord}
    (h1 : ¬ (st.first_row = true ∧ r.action = "R")) (h2 : ¬ r.action = "T")
    (h3 : ¬ (r.action = "F" ∧
      st.pending_records.getLast?.map (fun r => r.action) = some "T")) :
    (processRecord st r).pending_records = [] := by
  simp only [processRecord, if_neg h1, if_neg h2, if_neg h3]
  cases ht : tripletTrade r st.pending_records with
  | some t =>
    simp only []
    split_ifs <;> simp [emitSnapshot]
  | none =>
    simp only [regularAction, emitSnapshot]
    split_ifs <;> simp

theorem tripletTrade_eq_some {r t : MBORecord} {pend : List MBORecord} :
    tripletTrade r pend = some t ↔
      r.action = "C" ∧ t.action = "T" ∧ ∃ f tl, pend = t :: f :: tl ∧ f.action = "F" := by
  rcases pend with _ | ⟨x, _ | ⟨y, tl⟩⟩
  · simp [tripletTrade]
  · simp [tripletTrade]
  · simp only [tripletTrade]
    constructor
    · intro h
      split at h
      · rename_i hc
        simp only [Option.some.injEq] at h
        subst h
        exact ⟨hc.1, hc.2.1, y, tl, rfl, hc.2.2⟩
      · exact absurd h (by simp)
    · rintro ⟨h1, h2, f, tl', h3, h4⟩
      simp only [List.cons.injEq] at h3
      obtain ⟨rfl, rfl, rfl⟩ := h3
      simp [h1, h2, h4]

/-- The trade calls of one iteration: there is one exactly when the record is a
Cancel completing a buffered Trade, Fill pair whose Trade has a side other than
`'N'`, and its arguments are those of the buffered Trade. -/
theorem apply_trade_mem_stepCalls {st : Driver} {r : MBORecord} {p : Price} {s : Int}
    {sd : Char} :
    BookCall.apply_trade p s sd ∈ stepCalls st r ↔
      r.action = "C" ∧ ∃ t f tl, st.pending_records = t :: f :: tl ∧ t.action = "T" ∧
        f.action = "F" ∧ t.side ≠ 'N' ∧ p = t.price ∧ s = t.size ∧ sd = t.side := by
  constructor
  · intro h
    unfold stepCalls at h
    split at h
    · simp at h
    · split at h
      · simp at h
      · split at h
        · simp at h
        · split at h
          · rename_i t ht
            obtain ⟨h1, h2, f, tl, h3, h4⟩ := tripletTrade_eq_some.1 ht
            split at h
            · rename_i hN
              simp only [List.mem_singleton, BookCall.apply_trade.injEq] at h
              exact ⟨h1, t, f, tl, h3, h2, h4, hN, h.1, h.2.1, h.2.2⟩
            · simp at h
          · split at h
            · simp at h
            · split at h
              · simp at h
              · split at h <;> simp at h
  · rintro ⟨hC, t, f, tl, hp, ht, hf, hN, rfl, rfl, rfl⟩
    have htt : tripletTrade r st.pending_records = some t :=
      tripletTrade_eq_some.2 ⟨hC, ht, f, tl, hp, hf⟩
    simp [stepCalls, hC, htt, hN]

theorem driver_state_after (pre : List MBORecord) :
    (driverLoop initDriver pre).pending_records = pendingAfter pre.reverse ∧
      ((driverLoop initDriver pre).first_row = true → pre = []) := by
  induction pre using List.reverseRecOn with
  | nil => exact ⟨rfl, fun _ => rfl⟩
  | append_singleton pre r ih =>
    obtain ⟨hp, hfirst⟩ := ih
    rw [driverLoop_append]
    generalize driverLoop initDriver pre = st at hp hfirst
    rw [List.reverse_append, List.reverse_singleton, List.singleton_append]
    refine ⟨?_, fun h => ?_⟩
    · by_cases h1 : st.first_row = true ∧ r.action = "R"
      · have hnil := hfirst h1.1
        subst hnil
        simp [processRecord, h1, pendingAfter, h1.2, hp]
      · by_cases hT : r.action = "T"
        · rw [processRecord_T st hT]
          rcases hrev : pre.reverse with _ | ⟨x, tl⟩ <;> simp [pendingAfter, hT]
        · by_cases hF : r.action = "F" ∧
              st.pending_records.getLast?.map (fun r => r.action) = some "T"
          · rcases hrev : pre.reverse with _ | ⟨x, _ | ⟨y, tl⟩⟩
            · rw [hrev] at hp; simp [hp, pendingAfter] at hF
            · rw [hrev] at hp
              simp only [pendingAfter] at hp
              by_cases hx : x.action = "T"
              · simp only [hx, if_true] at hp
                rw [processRecord_F_after_T st hx hF.1 hp]
                simp [pendingAfter, hF.1, hx]
              · simp [hp, hx] at hF
            · rw [hrev] at hp
              simp only [pendingAfter] at hp
              by_cases hxy : x.action = "F" ∧ y.action = "T"
              · simp [hp, hxy, hxy.1] at hF
              · by_cases hx : x.action = "T"
                · simp only [hxy, hx, if_true, if_false] at hp
                  rw [processRecord_F_after_T st hx hF.1 hp]
                  simp [pendingAfter, hF.1, hx]
                · simp [hp, hxy, hx] at hF
          · rw [processRecord_pending_other st h1 hT hF]
            rcases hrev : pre.reverse with _ | ⟨x, tl⟩
            · simp [pendingAfter, hT]
            · simp only [pendingAfter, hT, if_false]
              by_cases hx : r.action = "F" ∧ x.action = "T"
              · exfalso
                apply hF
                refine ⟨hx.1, ?_⟩
                rw [hp, hrev]
                rcases tl with _ | ⟨y, tl2⟩
                · simp [pendingAfter, hx.2]
                · have hxF : ¬ x.action = "F" := by rw [hx.2]; decide
                  simp [pendingAfter, hx.2, hxF]
              · simp [hx]
    · rw [processRecord_first_row] at h
      exact absurd h (by simp)

theorem pendingAfter_eq_pair {revd : List MBORecord} {t f : MBORecord}
    {tl : List MBORecord} :
    pendingAfter revd = t :: f :: tl ↔
      tl = [] ∧ ∃ rest, revd = f :: t :: rest ∧ f.action = "F" ∧ t.action = "T" := by
  rcases revd with _ | ⟨x, _ | ⟨y, rest⟩⟩
  · simp [pendingAfter]
  · simp only [pendingAfter]
    split_ifs <;> simp
  · simp only [pendingAfter]
    split_ifs with h1 h2
    · constructor
      · intro h
        simp only [List.cons.injEq] at h
        obtain ⟨rfl, rfl, rfl⟩ := h
        exact ⟨rfl, rest, rfl, h1.1, h1.2⟩
      · rintro ⟨rfl, rest', h, _, _⟩
        simp only [List.cons.injEq] at h
        obtain ⟨rfl, rfl, rfl⟩ := h
        rfl
    · constructor
      · intro h; simp at h
      · rintro ⟨_, rest', h, hf, ht⟩
        simp only [List.cons.injEq] at h
        obtain ⟨rfl, rfl, rfl⟩ := h
        exact absurd ⟨hf, ht⟩ h1
    · constructor
      · intro h; simp at h
      · rintro ⟨_, rest', h, hf, ht⟩
        simp only [List.cons.injEq] at h
        obtain ⟨rfl, rfl, rfl⟩ := h
        exact absurd ⟨hf, ht⟩ h1

/-- After a stream the buffer starts with a Trade and a Fill exactly when these
are the last two records of the stream. -/
theorem pending_pair_iff (pre : List MBORecord) (t f : MBORecord) :
    (∃ tl, (driverLoop initDriver pre).pending_records = t :: f :: tl ∧ t.action = "T" ∧
        f.action = "F") ↔
      ∃ pre', pre = pre' ++ [t, f] ∧ t.action = "T" ∧ f.action = "F" := by
  rw [(driver_state_after pre).1]
  constructor
  · rintro ⟨tl, h, ht, hf⟩
    obtain ⟨_, rest, hrev, _, _⟩ := pendingAfter_eq_pair.1 h
    refine ⟨rest.reverse, ?_, ht, hf⟩
    have := congrArg List.reverse hrev
    simpa using this
  · rintro ⟨pre', rfl, ht, hf⟩
    refine ⟨[], ?_, ht, hf⟩
    exact pendingAfter_eq_pair.2 ⟨rfl, pre'.reverse, by simp, hf, ht⟩

theorem pendingAfter_last_T {revd : List MBORecord} :
    (pendingAfter revd).getLast?.map (fun r => r.action) = some "T" ↔
      ∃ t rest, revd = t :: rest ∧ t.action = "T" := by
  rcases revd with _ | ⟨x, _ | ⟨y, rest⟩⟩
  · simp [pendingAfter]
  · simp only [pendingAfter]
    split_ifs with h <;> simp [h]
  · simp only [pendingAfter]
    split_ifs with h1 h2
    · have : ¬ x.action = "T" := by rw [h1.1]; decide
      simp [h1.1, this]
    · simp [h2]
    · simp [h2]

theorem pending_last_T_iff (pre : List MBORecord) :
    (driverLoop initDriver pre).pending_records.getLast?.map (fun r => r.action) = some "T" ↔
      ∃ pre' t, pre = pre' ++ [t] ∧ t.action = "T" := by
  rw [(driver_state_after pre).1, pendingAfter_last_T]
  constructor
  · rintro ⟨t, rest, hrev, ht⟩
    refine ⟨rest.reverse, t, ?_, ht⟩
    have := congrArg List.reverse hrev
    simpa using this
  · rintro ⟨pre', t, rfl, ht⟩
    exact ⟨t, pre'.reverse, by simp, ht⟩

theorem first_row_iff (pre : List MBORecord) :
    (driverLoop initDriver pre).first_row = true ↔ pre = [] := by
  constructor
  · exact (driver_state_after pre).2
  · rintro rfl; rfl

theorem processRecord_outfile (st : Driver) (r : MBORecord) :
    (((st.first_row = true ∧ r.action = "R") ∨ r.action = "T" ∨
        (r.action = "F" ∧
          st.pending_records.getLast?.map (fun r => r.action) = some "T")) →
      (processRecord st r).outfile = st.outfile) ∧
    (¬ ((st.first_row = true ∧ r.action = "R") ∨ r.action = "T" ∨
        (r.action = "F" ∧
          st.pending_records.getLast?.map (fun r => r.action) = some "T")) →
      (processRecord st r).outfile = st.outfile ++
        [⟨r, (get_top10_levels (processRecord st r).book).1,
          (get_top10_levels (processRecord st r).book).2⟩]) := by
  by_cases h1 : st.first_row = true ∧ r.action = "R"
  · refine ⟨fun _ => by simp [processRecord, h1], fun hn => absurd (Or.inl h1) hn⟩
  · by_cases h2 : r.action = "T"
    · refine ⟨fun _ => by simp [processRecord, h2], fun hn => absurd (Or.inr (Or.inl h2)) hn⟩
    · by_cases h3 : r.action = "F" ∧
          st.pending_records.getLast?.map (fun r => r.action) = some "T"
      · refine ⟨fun _ => ?_, fun hn => absurd (Or.inr (Or.inr h3)) hn⟩
        simp only [processRecord, if_neg h1, if_neg h2, if_pos h3]
      · refine ⟨fun h => ?_, fun _ => ?_⟩
        · rcases h with h | h | h
          · exact absurd h h1
          · exact absurd h h2
          · exact absurd h h3
        · simp only [processRecord, if_neg h1, if_neg h2, if_neg h3]
          cases ht : tripletTrade r st.pending_records with
          | some t =>
            simp only []
            split_ifs <;> simp [emitSnapshot]
          | none =>
            simp only [regularAction, emitSnapshot]
            split_ifs <;> simp

/-! ### `get_top10_levels` -/

theorem totalSize_eq_sum (l : List Order) : totalSize l = (l.map (fun o => o.size)).sum := by
  induction l with
  | nil => rfl
  | cons x tl ih => rw [totalSize_cons, ih]; simp

theorem wrapInt32_add_left (a b : Int) : wrapInt32 (wrapInt32 a + b) = wrapInt32 (a + b) := by
  unfold wrapInt32
  omega

theorem wrapInt32_of_range {x : Int} (h1 : -2147483648 ≤ x) (h2 : x < 2147483648) :
    wrapInt32 x = x := by
  unfold wrapInt32
  omega

theorem total_size_foldl (acc : Int) (l : List Order) :
    l.foldl (fun a o => wrapInt32 (a + o.size)) (wrapInt32 acc) =
      wrapInt32 (acc + totalSize l) := by
  induction l generalizing acc with
  | nil => simp [totalSize]
  | cons x tl ih =>
    simp only [List.foldl_cons]
    rw [wrapInt32_add_left, ih, totalSize_cons]
    congr 1
    omega

/-- The 32-bit accumulator of `get_top10_levels` holds the wrap-around of the
mathematical sum. -/
theorem total_size_eq_wrap (l : List Order) : total_size l = wrapInt32 (totalSize l) := by
  have h := total_size_foldl 0 l
  have h0 : wrapInt32 0 = 0 := by decide
  rw [h0] at h
  simpa [total_size] using h

theorem total_size_of_range {l : List Order}
    (h1 : -2147483648 ≤ (l.map (fun o => o.size)).sum)
    (h2 : (l.map (fun o => o.size)).sum < 2147483648) :
    total_size l = (l.map (fun o => o.size)).sum := by
  rw [total_size_eq_wrap, totalSize_eq_sum]
  exact wrapInt32_of_range h1 h2

theorem collectLevels_eq_take (m : LevelMap) (acc : List LevelRow) (hacc : acc.length < 10) :
    collectLevels m acc = (acc ++ m.map levelRow).take 10 := by
  induction m generalizing acc with
  | nil =>
    simp only [collectLevels, List.map_nil, List.append_nil]
    rw [List.take_of_length_le (by omega)]
  | cons x rest ih =>
    obtain ⟨p, os⟩ := x
    have hrow : (p, total_size os, (os.length : Int)) = levelRow (p, os) := rfl
    simp only [collectLevels, hrow]
    have hlen : (acc ++ [levelRow (p, os)]).length = acc.length + 1 := by simp
    have happ : acc ++ List.map levelRow ((p, os) :: rest) =
        (acc ++ [levelRow (p, os)]) ++ rest.map levelRow := by simp
    split_ifs with h10
    · rw [happ, List.take_append_of_le_length (by omega), List.take_of_length_le (by omega)]
    · rw [ih _ (by omega), happ]

theorem get_top10_levels_eq (b : OrderBook) :
    get_top10_levels b = ((b.bids.take 10).map levelRow, (b.asks.take 10).map levelRow) := by
  simp only [get_top10_levels]
  rw [collectLevels_eq_take _ _ (by simp), collectLevels_eq_take _ _ (by simp)]
  simp [List.map_take]

theorem prices_take_pairwise {cmp : Price → Price → Bool} {m : LevelMap}
    (hs : SortedBy cmp m) (R : Price → Price → Prop)
    (hR : ∀ a b, cmp a b = true → R a b) :
    (((m.take 10).map levelRow).map (fun row => row.1)).Pairwise R := by
  rw [List.map_map, List.pairwise_map]
  refine List.Pairwise.imp ?_ (List.Pairwise.sublist (List.take_sublist 10 m) hs)
  intro x y hxy
  exact hR _ _ hxy

/-- In a sorted map every entry beyond the first ten comes, in the order of the
comparator, after every one of the first ten. -/
theorem beyond_take_after {cmp : Price → Price → Bool} {m : LevelMap}
    (hs : SortedBy cmp m) {row : LevelRow} (hrow : row ∈ (m.take 10).map levelRow)
    {e : Price × List Order} (he : e ∈ m)
    (hnot : e.1 ∉ ((m.take 10).map levelRow).map (fun r => r.1)) :
    cmp row.1 e.1 = true := by
  obtain ⟨x, hx, rfl⟩ := List.mem_map.1 hrow
  have hsplit : m = m.take 10 ++ m.drop 10 := (List.take_append_drop 10 m).symm
  have hed : e ∈ m.drop 10 := by
    rw [hsplit] at he
    rcases List.mem_append.1 he with h | h
    · exfalso
      apply hnot
      rw [List.map_map]
      exact List.mem_map.2 ⟨e, h, rfl⟩
    · exact h
  have hpw : (m.take 10 ++ m.drop 10).Pairwise (fun x y => cmp x.1 y.1 = true) := by
    rw [← hsplit]; exact hs
  exact (List.pairwise_append.1 hpw).2.2 x hx e hed

/-! ### Books with a single level -/

theorem mapUpdate_levelMapOf {cmp : Price → Price → Bool} (hc : StrictCmp cmp) (p : Price)
    (f : List Order → List Order) (X : List Order) :
    mapUpdate cmp p f (levelMapOf p X) = [(p, f X)] := by
  cases X with
  | nil => simp [levelMapOf, mapUpdate]
  | cons x tl => simp [levelMapOf, mapUpdate, hc.irrefl]

theorem eraseIfEmpty_single {cmp : Price → Price → Bool} (hc : StrictCmp cmp) (p : Price)
    (X : List Order) : eraseIfEmpty cmp p [(p, X)] = levelMapOf p X := by
  cases X with
  | nil => simp [eraseIfEmpty, mapGet, mapFind, mapErase, levelMapOf, hc.irrefl]
  | cons x tl => simp [eraseIfEmpty, mapGet, mapFind, levelMapOf, hc.irrefl]

theorem levelMapOf_append_singleton (p : Price) (X : List Order) (o : Order) :
    levelMapOf p (X ++ [o]) = [(p, X ++ [o])] := by
  simp [levelMapOf]

theorem oneLevel_emptyBook (side : Char) (price : Price) :
    OneLevel side price [] emptyBook := by
  refine ⟨by simp [emptyBook, levelMapOf], by simp [emptyBook, levelMapOf], ?_, ?_⟩
  · intro id; simp [emptyBook]
  · intro id e he; simp [emptyBook] at he

theorem oneLevel_add_order {side : Char} {price : Price} {X : List Order} {b : OrderBook}
    (h : OneLevel side price X b) (o : Order) (hs : o.side = side) (hp : o.price = price) :
    OneLevel side price (X ++ [o]) (add_order b o) := by
  obtain ⟨hb, ha, hdom, hloc⟩ := h
  subst hs hp
  refine ⟨?_, ?_, ?_, ?_⟩
  · by_cases hB : o.side = 'B'
    · simp only [add_order, hB, if_true, hb]
      rw [mapUpdate_levelMapOf bidCmp_strict, levelMapOf_append_singleton]
    · simp [add_order, hB, hb]
  · by_cases hB : o.side = 'B'
    · simp [add_order, hB, ha]
    · simp only [add_order, hB, if_false, ha]
      rw [mapUpdate_levelMapOf askCmp_strict, levelMapOf_append_singleton]
  · intro id
    have hom : (add_order b o).order_map = indexSet b.order_map o.order_id o := by
      simp only [add_order]; split <;> rfl
    rw [hom]
    by_cases hid : id = o.order_id
    · subst hid
      simp only [indexSet, if_true, ne_eq, reduceCtorEq, not_false_eq_true, true_iff]
      exact ⟨o, List.mem_append_right _ (List.mem_singleton_self o), rfl⟩
    · have hid' : ¬ o.order_id = id := fun h => hid h.symm
      simp only [indexSet, hid, if_false, hdom id, List.mem_append, List.mem_singleton]
      constructor
      · rintro ⟨w, hw, hwid⟩; exact ⟨w, Or.inl hw, hwid⟩
      · rintro ⟨w, hw | hw, hwid⟩
        · exact ⟨w, hw, hwid⟩
        · subst hw; exact absurd hwid hid'
  · intro id e he
    have hom : (add_order b o).order_map = indexSet b.order_map o.order_id o := by
      simp only [add_order]; split <;> rfl
    rw [hom] at he
    by_cases hid : id = o.order_id
    · simp only [indexSet, hid, if_true, Option.some.injEq] at he
      subst he; exact ⟨rfl, rfl⟩
    · simp only [indexSet, hid, if_false] at he
      exact hloc id e he

theorem removeId_eq_self {id : Int} {X : List Order} (h : ∀ o ∈ X, o.order_id ≠ id) :
    removeId id X = X := by
  simp only [removeId, List.filter_eq_self]
  intro o ho
  simpa using h o ho

theorem oneLevel_cancel_order {side : Char} {price : Price} {X : List Order} {b : OrderBook}
    (h : OneLevel side price X b) (id : Int) :
    OneLevel side price (removeId id X) (cancel_order b id) := by
  obtain ⟨hb, ha, hdom, hloc⟩ := h
  cases he : b.order_map id with
  | none =>
    have hno : ∀ o ∈ X, o.order_id ≠ id := by
      intro o ho hoid
      exact ((hdom id).2 ⟨o, ho, hoid⟩) he
    rw [removeId_eq_self hno]
    simpa [cancel_order, he] using (⟨hb, ha, hdom, hloc⟩ : OneLevel side price X b)
  | some e =>
    obtain ⟨hes, hep⟩ := hloc id e he
    subst hes hep
    refine ⟨?_, ?_, ?_, ?_⟩
    · by_cases hB : e.side = 'B'
      · simp only [cancel_order, he, hB, if_true, hb]
        rw [mapUpdate_levelMapOf bidCmp_strict, eraseIfEmpty_single bidCmp_strict]
      · simp [cancel_order, he, hB, hb]
    · by_cases hB : e.side = 'B'
      · simp [cancel_order, he, hB, ha]
      · simp only [cancel_order, he, hB, if_false, ha]
        rw [mapUpdate_levelMapOf askCmp_strict, eraseIfEmpty_single askCmp_strict]
    · intro j
      have hom : (cancel_order b id).order_map = indexErase b.order_map id := by
        simp only [cancel_order, he]; split <;> rfl
      rw [hom]
      by_cases hj : j = id
      · subst hj
        simp [indexErase, mem_removeId]
      · simp only [indexErase, hj, if_false, hdom j, mem_removeId]
        constructor
        · rintro ⟨w, hw, hwid⟩; exact ⟨w, ⟨hw, by rw [hwid]; exact hj⟩, hwid⟩
        · rintro ⟨w, ⟨hw, _⟩, hwid⟩; exact ⟨w, hw, hwid⟩
    · intro j e' he'
      have hom : (cancel_order b id).order_map = indexErase b.order_map id := by
        simp only [cancel_order, he]; split <;> rfl
      rw [hom] at he'
      by_cases hj : j = id
      · simp [indexErase, hj] at he'
      · simp only [indexErase, hj, if_false] at he'
        exact hloc j e' he'

theorem oneLevel_runCalls {side : Char} {price : Price} (calls : List BookCall)
    (hcalls : AddsAndCancelsAt side price calls) :
    ∀ (X : List Order) (b : OrderBook), OneLevel side price X b →
      OneLevel side price
        (X.filter (fun o => decide (BookCall.cancel_order o.order_id ∉ calls)) ++
          liveOrders calls)
        (runCalls b calls) := by
  induction calls with
  | nil => intro X b h; simpa [liveOrders, runCalls] using h
  | cons c rest ih =>
    intro X b h
    have hrest : AddsAndCancelsAt side price rest :=
      fun c' hc' => hcalls c' (List.mem_cons_of_mem _ hc')
    rcases hcalls c (List.mem_cons_self _ _) with ⟨o, rfl, hs, hp⟩ | ⟨id, rfl⟩
    · have h1 := ih hrest (X ++ [o]) (add_order b o) (oneLevel_add_order h o hs hp)
      have hlist : List.filter (fun o' => decide (BookCall.cancel_order o'.order_id ∉ rest))
            (X ++ [o]) ++ liveOrders rest =
          List.filter (fun o' => decide (BookCall.cancel_order o'.order_id ∉
            BookCall.add_order o :: rest)) X ++ liveOrders (BookCall.add_order o :: rest) := by
        by_cases hc : BookCall.cancel_order o.order_id ∈ rest
        · simp [liveOrders, hc, List.filter_append, List.filter_cons]
        · simp [liveOrders, hc, List.filter_append, List.filter_cons]
      rw [← hlist]
      exact h1
    · have h1 := ih hrest (removeId id X) (cancel_order b id) (oneLevel_cancel_order h id)
      have hlist : List.filter (fun o' => decide (BookCall.cancel_order o'.order_id ∉ rest))
            (removeId id X) ++ liveOrders rest =
          List.filter (fun o' => decide (BookCall.cancel_order o'.order_id ∉
            BookCall.cancel_order id :: rest)) X ++
            liveOrders (BookCall.cancel_order id :: rest) := by
        simp only [liveOrders, removeId, List.filter_filter]
        congr 1
        apply List.filter_congr
        intro o' _
        by_cases h1 : o'.order_id = id <;> simp [h1]
      rw [← hlist]
      exact h1

theorem get_top10_levels_single (price : Price) (X : List Order) (hX : X ≠ []) :
    collectLevels (levelMapOf price X) [] = [(price, total_size X, (X.length : Int))] := by
  have : X.isEmpty = false := by cases X <;> simp_all
  simp [levelMapOf, this, collectLevels]

/-! ### Entries of the maps -/

theorem StrictCmp.asymm {cmp : Price → Price → Bool} (hc : StrictCmp cmp) {a b : Price}
    (h : cmp a b = true) : cmp b a = false := by
  cases hba : cmp b a with
  | false => rfl
  | true =>
    have := hc.trans a b a h hba
    rw [hc.irrefl] at this
    exact absurd this (by simp)

theorem mapFind_of_mem {cmp : Price → Price → Bool} (hc : StrictCmp cmp) {m : LevelMap}
    (hs : SortedBy cmp m) {k : Price} {v : List Order} (h : (k, v) ∈ m) :
    mapFind cmp k m = some v := by
  induction m with
  | nil => simp at h
  | cons x rest ih =>
    obtain ⟨k', v'⟩ := x
    have hs2 := List.pairwise_cons.1 hs
    rcases List.mem_cons.1 h with heq | hrest
    · simp only [Prod.mk.injEq] at heq
      obtain ⟨rfl, rfl⟩ := heq
      simp [mapFind, hc.irrefl]
    · have hlt : cmp k' k = true := hs2.1 (k, v) hrest
      simp only [mapFind, hc.asymm hlt, hlt, if_true, Bool.false_eq_true, if_false]
      exact ih hs2.2 hrest

theorem mem_mapUpdate {cmp : Price → Price → Bool} (hc : StrictCmp cmp) {p : Price}
    {f : List Order → List Order} {m : LevelMap} {ent : Price × List Order}
    (h : ent ∈ mapUpdate cmp p f m) : ent ∈ m ∨ ent = (p, f (mapGet cmp p m)) := by
  induction m with
  | nil =>
    simp only [mapUpdate, List.mem_singleton] at h
    right; simpa [mapGet, mapFind] using h
  | cons x rest ih =>
    obtain ⟨k, v⟩ := x
    by_cases h1 : cmp p k = true
    · simp only [mapUpdate, h1, if_true, List.mem_cons] at h
      rcases h with h | h | h
      · right; simpa [mapGet, mapFind, h1] using h
      · left; exact List.mem_cons.2 (Or.inl h)
      · left; exact List.mem_cons_of_mem _ h
    · by_cases h2 : cmp k p = true
      · simp only [mapUpdate, h1, h2, if_true, if_false, Bool.false_eq_true, List.mem_cons] at h
        rcases h with h | h
        · left; exact List.mem_cons.2 (Or.inl h)
        · rcases ih h with h' | h'
          · left; exact List.mem_cons_of_mem _ h'
          · right; simpa [mapGet, mapFind, h1, h2] using h'
      · have hkp : k = p := hc.total k p (by simpa using h2) (by simpa using h1)
        subst hkp
        simp only [mapUpdate, h1, if_false, Bool.false_eq_true, List.mem_cons] at h
        rcases h with h | h
        · right; simpa [mapGet, mapFind, h1] using h
        · left; exact List.mem_cons_of_mem _ h

theorem key_ne_of_mem_mapErase {cmp : Price → Price → Bool} (hc : StrictCmp cmp) {p : Price}
    {m : LevelMap} (hs : SortedBy cmp m) {ent : Price × List Order}
    (h : ent ∈ mapErase cmp p m) : ent.1 ≠ p := by
  intro hp
  obtain ⟨k, v⟩ := ent
  simp only at hp
  subst hp
  have := mapFind_of_mem hc (sortedBy_mapErase k hs) h
  rw [mapFind_mapErase_same hc k hs] at this
  exact absurd this (by simp)

theorem mem_eraseIfEmpty {cmp : Price → Price → Bool} (hc : StrictCmp cmp) {p : Price}
    {m : LevelMap} (hs : SortedBy cmp m) {ent : Price × List Order}
    (h : ent ∈ eraseIfEmpty cmp p m) : ent ∈ m ∧ (ent.1 = p → ent.2 ≠ []) := by
  unfold eraseIfEmpty at h
  split at h
  · exact ⟨(mapErase_sublist p m).subset h, fun hp => absurd hp (key_ne_of_mem_mapErase hc hs h)⟩
  · rename_i hne
    refine ⟨h, fun hp hnil => hne ?_⟩
    obtain ⟨k, v⟩ := ent
    simp only at hp hnil
    subst hp hnil
    simp [mapGet, mapFind_of_mem hc hs h]

theorem no_key_after_erase {cmp : Price → Price → Bool} (hc : StrictCmp cmp) {p : Price}
    {m : LevelMap} (hs : SortedBy cmp m) (hempty : mapGet cmp p m = [])
    {ent : Price × List Order} (h : ent ∈ eraseIfEmpty cmp p m) : ent.1 ≠ p := by
  intro hp
  exact (mem_eraseIfEmpty hc hs h).2 hp (by
    obtain ⟨k, v⟩ := ent
    simp only at hp
    subst hp
    have := mapFind_of_mem hc hs (mem_eraseIfEmpty hc hs h).1
    simpa [mapGet, this] using hempty)

theorem mapFind_eq_none_of_no_key {cmp : Price → Price → Bool} {p : Price} {m : LevelMap}
    (h : ∀ ent ∈ m, ent.1 ≠ p) (hc : StrictCmp cmp) : mapFind cmp p m = none := by
  induction m with
  | nil => rfl
  | cons x rest ih =>
    obtain ⟨k, v⟩ := x
    have hk : k ≠ p := h (k, v) (List.mem_cons_self _ _)
    simp only [mapFind]
    split_ifs with h1 h2
    · rfl
    · exact ih (fun ent he => h ent (List.mem_cons_of_mem _ he))
    · exact absurd (hc.total k p (by simpa using h2) (by simpa using h1)) hk

theorem row_price_mem {m : LevelMap} {row : LevelRow}
    (h : row ∈ (m.take 10).map levelRow) : ∃ ent ∈ m, row = levelRow ent := by
  obtain ⟨ent, hent, rfl⟩ := List.mem_map.1 h
  exact ⟨ent, List.mem_of_mem_take hent, rfl⟩

theorem mem_sideRows {b : OrderBook} {side : Char} {row : LevelRow}
    (h : row ∈ sideRows b side) : ∃ ent ∈ sideLevels b side, row = levelRow ent := by
  unfold sideRows at h
  unfold sideLevels
  rw [get_top10_levels_eq] at h
  split at h
  · rw [if_pos (by assumption)]; exact row_price_mem h
  · rw [if_neg (by assumption)]; exact row_price_mem h

/-! ### No empty level -/

theorem setFirstSize_ne_nil (i : Int) (s : Int) {l : List Order} (h : l ≠ []) :
    setFirstSize i s l ≠ [] := by
  cases l with
  | nil => exact absurd rfl h
  | cons x tl => simp only [setFirstSize]; split <;> simp

theorem noEmpty_mapUpdate {cmp : Price → Price → Bool} (hc : StrictCmp cmp) {p : Price}
    {f : List Order → List Order} {m : LevelMap} (hm : ∀ ent ∈ m, ent.2 ≠ [])
    (hf : f (mapGet cmp p m) ≠ []) : ∀ ent ∈ mapUpdate cmp p f m, ent.2 ≠ [] := by
  intro ent hent
  rcases mem_mapUpdate hc hent with h | h
  · exact hm ent h
  · rw [h]; exact hf

theorem noEmpty_update_erase {cmp : Price → Price → Bool} (hc : StrictCmp cmp) {p : Price}
    {f : List Order → List Order} {m : LevelMap} (hs : SortedBy cmp m)
    (hm : ∀ ent ∈ m, ent.2 ≠ []) :
    ∀ ent ∈ eraseIfEmpty cmp p (mapUpdate cmp p f m), ent.2 ≠ [] := by
  intro ent hent
  obtain ⟨h1, h2⟩ := mem_eraseIfEmpty hc (sortedBy_mapUpdate hc p f hs) hent
  rcases mem_mapUpdate hc h1 with h | h
  · exact hm ent h
  · exact h2 (by rw [h])

theorem noEmpty_emptyBook : NoEmptyLevel emptyBook := by
  intro ent h; simp [emptyBook] at h

theorem noEmpty_add_order {b : OrderBook} (h : NoEmptyLevel b) (o : Order) :
    NoEmptyLevel (add_order b o) := by
  intro ent hent
  by_cases hB : o.side = 'B'
  · simp only [add_order, hB, if_true] at hent
    rcases hent with hent | hent
    · exact noEmpty_mapUpdate bidCmp_strict (fun e he => h e (Or.inl he)) (by simp) ent hent
    · exact h ent (Or.inr hent)
  · simp only [add_order, hB, if_false] at hent
    rcases hent with hent | hent
    · exact h ent (Or.inl hent)
    · exact noEmpty_mapUpdate askCmp_strict (fun e he => h e (Or.inr he)) (by simp) ent hent

theorem noEmpty_modify_order {b : OrderBook} (hok : ∀ id, IdOK b id) (h : NoEmptyLevel b)
    (i : Int) (sz : Int) : NoEmptyLevel (modify_order b i sz) := by
  cases he : b.order_map i with
  | none => simpa [modify_order, he] using h
  | some e =>
    obtain ⟨_, w, hw, _, _⟩ := (hok i).2 e he
    have hne : levelAt b e.side e.price ≠ [] := List.ne_nil_of_mem hw
    intro ent hent
    by_cases hB : e.side = 'B'
    · simp only [modify_order, he, hB, if_true] at hent
      simp only [levelAt, hB, if_true] at hne
      rcases hent with hent | hent
      · exact noEmpty_mapUpdate bidCmp_strict (fun e he => h e (Or.inl he))
          (setFirstSize_ne_nil i sz hne) ent hent
      · exact h ent (Or.inr hent)
    · simp only [modify_order, he, hB, if_false] at hent
      simp only [levelAt, hB, if_false] at hne
      rcases hent with hent | hent
      · exact h ent (Or.inl hent)
      · exact noEmpty_mapUpdate askCmp_strict (fun e he => h e (Or.inr he))
          (setFirstSize_ne_nil i sz hne) ent hent

theorem noEmpty_cancel_order {b : OrderBook} (hwf : b.WF) (h : NoEmptyLevel b) (i : Int) :
    NoEmptyLevel (cancel_order b i) := by
  cases he : b.order_map i with
  | none => simpa [cancel_order, he] using h
  | some e =>
    intro ent hent
    by_cases hB : e.side = 'B'
    · simp only [cancel_order, he, hB, if_true] at hent
      rcases hent with hent | hent
      · exact noEmpty_update_erase bidCmp_strict hwf.1 (fun e he => h e (Or.inl he)) ent hent
      · exact h ent (Or.inr hent)
    · simp only [cancel_order, he, hB, if_false] at hent
      rcases hent with hent | hent
      · exact h ent (Or.inl hent)
      · exact noEmpty_update_erase askCmp_strict hwf.2 (fun e he => h e (Or.inr he)) ent hent

theorem noEmpty_apply_trade {b : OrderBook} (hwf : b.WF) (h : NoEmptyLevel b) (p : Price)
    (n : Int) (side : Char) : NoEmptyLevel (apply_trade b p n side) := by
  rcases apply_trade_cases b p n side with h0 | ⟨rfl, L, hL⟩ | ⟨rfl, L, hL⟩
  · rw [h0]; exact h
  · intro ent hent
    simp only [apply_trade, hL, if_true] at hent
    rcases hent with hent | hent
    · exact noEmpty_update_erase bidCmp_strict hwf.1 (fun e he => h e (Or.inl he)) ent hent
    · exact h ent (Or.inr hent)
  · intro ent hent
    have hBA : ¬ (('B' : Char) = 'A') := by decide
    simp only [apply_trade, hL, hBA, if_true, if_false] at hent
    rcases hent with hent | hent
    · exact h ent (Or.inl hent)
    · exact noEmpty_update_erase askCmp_strict hwf.2 (fun e he => h e (Or.inr he)) ent hent

theorem noEmpty_runCalls {b : OrderBook} (hwf : b.WF) (hok : ∀ id, IdOK b id)
    (h : NoEmptyLevel b) (calls : List BookCall) (hfresh : FreshAdds b calls) :
    NoEmptyLevel (runCalls b calls) := by
  induction calls generalizing b with
  | nil => exact h
  | cons c rest ih =>
    cases c with
    | add_order o =>
      exact ih (wf_add_order hwf o) (idOK_add_order hwf hok o hfresh.1)
        (noEmpty_add_order h o) hfresh.2
    | modify_order i sz =>
      exact ih (wf_modify_order hwf i sz) (idOK_modify_order hwf hok i sz)
        (noEmpty_modify_order hok h i sz) hfresh
    | cancel_order i =>
      exact ih (wf_cancel_order hwf i) (idOK_cancel_order hwf hok i)
        (noEmpty_cancel_order hwf h i) hfresh
    | apply_trade p n s =>
      exact ih (wf_apply_trade hwf p n s) (idOK_apply_trade hwf hok p n s)
        (noEmpty_apply_trade hwf h p n s) hfresh
    | clear =>
      exact ih wf_emptyBook idOK_emptyBook noEmpty_emptyBook hfresh

/-! ### `modify_order` in a consistent book -/

theorem map_resizeOrder_of_count_zero {id : Int} (sz : Int) {l : List Order}
    (h : idCount id l = 0) : l.map (resizeOrder id sz) = l := by
  rw [idCount_eq_zero_iff] at h
  induction l with
  | nil => rfl
  | cons x tl ih =>
    have hx : x.order_id ≠ id := h x (List.mem_cons_self _ _)
    have htl := ih (fun o ho => h o (List.mem_cons_of_mem _ ho))
    rw [List.map_cons, htl]
    simp [resizeOrder, hx]

theorem setFirstSize_eq_map {id : Int} (sz : Int) {l : List Order} (h : idCount id l ≤ 1) :
    setFirstSize id sz l = l.map (resizeOrder id sz) := by
  induction l with
  | nil => rfl
  | cons x tl ih =>
    rw [idCount_cons] at h
    by_cases hx : x.order_id = id
    · have htl : idCount id tl = 0 := by simp [hx] at h; omega
      simp only [setFirstSize, hx, if_true, List.map_cons, resizeOrder]
      rw [map_resizeOrder_of_count_zero sz htl]
    · simp only [setFirstSize, hx, if_false, List.map_cons, resizeOrder]
      rw [ih (by omega)]

theorem resizeLevels_of_count_zero {id : Int} (sz : Int) {m : LevelMap}
    (h : idCount id (mapOrders m) = 0) : resizeLevels id sz m = m := by
  induction m with
  | nil => rfl
  | cons x rest ih =>
    obtain ⟨k, v⟩ := x
    simp only [mapOrders, idCount_append] at h
    have hv : idCount id v = 0 := by omega
    have hr : idCount id (mapOrders rest) = 0 := by omega
    have := ih hr
    simp only [resizeLevels] at this ⊢
    simp only [List.map_cons, this, map_resizeOrder_of_count_zero sz hv]

theorem mapUpdate_setFirstSize_eq {cmp : Price → Price → Bool} {id : Int} (sz : Int)
    {p : Price} {m : LevelMap} (hcount : idCount id (mapOrders m) ≤ 1)
    (hw : ∃ o ∈ mapGet cmp p m, o.order_id = id) :
    mapUpdate cmp p (setFirstSize id sz) m = resizeLevels id sz m := by
  induction m with
  | nil => obtain ⟨o, ho, _⟩ := hw; simp [mapGet, mapFind] at ho
  | cons x rest ih =>
    obtain ⟨k, v⟩ := x
    obtain ⟨o, ho, hoid⟩ := hw
    simp only [mapOrders, idCount_append] at hcount
    by_cases h1 : cmp p k = true
    · simp [mapGet, mapFind, h1] at ho
    · by_cases h2 : cmp k p = true
      · have ho' : o ∈ mapGet cmp p rest := by
          simpa [mapGet, mapFind, h1, h2] using ho
        have hpos : 0 < idCount id (mapOrders rest) :=
          idCount_pos_iff.2 ⟨o, mem_mapOrders_of_mem_mapGet ho', hoid⟩
        have hv : idCount id v = 0 := by omega
        have := ih (by omega) ⟨o, ho', hoid⟩
        simp only [resizeLevels] at this ⊢
        simp only [mapUpdate, h1, h2, if_true, if_false, Bool.false_eq_true, List.map_cons,
          this, map_resizeOrder_of_count_zero sz hv]
      · have ho' : o ∈ v := by simpa [mapGet, mapFind, h1, h2] using ho
        have hpos : 0 < idCount id v := idCount_pos_iff.2 ⟨o, ho', hoid⟩
        have hr : idCount id (mapOrders rest) = 0 := by omega
        have := resizeLevels_of_count_zero sz hr
        simp only [resizeLevels] at this ⊢
        simp only [mapUpdate, h1, h2, if_false, Bool.false_eq_true, List.map_cons, this,
          setFirstSize_eq_map sz (show idCount id v ≤ 1 by omega)]

theorem mapFind_resizeLevels (cmp : Price → Price → Bool) (id : Int) (sz : Int) (p : Price)
    (m : LevelMap) :
    mapFind cmp p (resizeLevels id sz m) =
      (mapFind cmp p m).map (fun l => l.map (resizeOrder id sz)) := by
  induction m with
  | nil => rfl
  | cons x rest ih =>
    obtain ⟨k, v⟩ := x
    simp only [resizeLevels] at ih ⊢
    simp only [List.map_cons, mapFind]
    split_ifs
    · rfl
    · exact ih
    · rfl

theorem mapGet_resizeLevels (cmp : Price → Price → Bool) (id : Int) (sz : Int) (p : Price)
    (m : LevelMap) :
    mapGet cmp p (resizeLevels id sz m) = (mapGet cmp p m).map (resizeOrder id sz) := by
  simp only [mapGet, mapFind_resizeLevels]
  cases mapFind cmp p m <;> simp

theorem levelAt_of_resized {b b' : OrderBook} {id : Int} {sz : Int}
    (hb : b'.bids = resizeLevels id sz b.bids) (ha : b'.asks = resizeLevels id sz b.asks)
    (side : Char) (p : Price) :
    levelAt b' side p = (levelAt b side p).map (resizeOrder id sz) := by
  unfold levelAt
  split
  · rw [hb, mapGet_resizeLevels]
  · rw [ha, mapGet_resizeLevels]

/-! ### Frames of `add_order` and `apply_trade` -/

theorem mapFind_eraseIfEmpty_ne {cmp : Price → Price → Bool} (hc : StrictCmp cmp)
    {p q : Price} (hne : q ≠ p) {m : LevelMap} (hs : SortedBy cmp m) :
    mapFind cmp q (eraseIfEmpty cmp p m) = mapFind cmp q m := by
  unfold eraseIfEmpty
  split
  · exact mapFind_mapErase_ne hc hne hs
  · rfl

theorem mapFind_update_erase_ne {cmp : Price → Price → Bool} (hc : StrictCmp cmp)
    {p q : Price} (hne : q ≠ p) (f : List Order → List Order) {m : LevelMap}
    (hs : SortedBy cmp m) :
    mapFind cmp q (eraseIfEmpty cmp p (mapUpdate cmp p f m)) = mapFind cmp q m := by
  rw [mapFind_eraseIfEmpty_ne hc hne (sortedBy_mapUpdate hc p f hs),
    mapFind_mapUpdate_ne hc hne]

theorem sideCmp_strict (side : Char) : StrictCmp (sideCmp side) := by
  unfold sideCmp
  split
  · exact bidCmp_strict
  · exact askCmp_strict

theorem levelAt_eq_mapGet (b : OrderBook) (side : Char) (p : Price) :
    levelAt b side p = mapGet (sideCmp side) p (sideLevels b side) := by
  unfold levelAt sideCmp sideLevels
  split <;> rfl

theorem consume_excess {L : List Order} (hnn : ∀ o ∈ L, 0 ≤ o.size) {n : Int}
    (h : totalSize L < n) (om : OrderIndex) :
    consume L n om = ([], eraseIds om (L.map (fun o => o.order_id))) := by
  induction L generalizing n om with
  | nil =>
    have : eraseIds om [] = om := by funext j; simp [eraseIds]
    simp [consume, this]
  | cons x tl ih =>
    have hx := hnn x (List.mem_cons_self _ _)
    have htl := totalSize_nonneg (fun o ho => hnn o (List.mem_cons_of_mem _ ho))
    rw [totalSize_cons] at h
    have hpos : 0 < n := by omega
    have hle : x.size ≤ n := by omega
    simp only [consume, hpos, hle, if_true, List.map_cons]
    rw [ih (fun o ho => hnn o (List.mem_cons_of_mem _ ho)) (by omega), eraseIds_indexErase]

theorem levelDropped_of_excess {cmp : Price → Price → Bool} (hc : StrictCmp cmp)
    {m : LevelMap} (hs : SortedBy cmp m) (price : Price) (L : List Order)
    (om : OrderIndex) :
    LevelDropped cmp price L m
      (eraseIfEmpty cmp price (mapUpdate cmp price (fun _ => []) m)) om
      (eraseIds om (L.map (fun o => o.order_id))) := by
  have hents : ∀ ent ∈ eraseIfEmpty cmp price (mapUpdate cmp price (fun _ => []) m),
      ent.1 ≠ price := by
    intro ent hent
    refine no_key_after_erase hc (sortedBy_mapUpdate hc _ _ hs) ?_ hent
    rw [mapGet_mapUpdate hc, if_pos rfl]
  refine ⟨hents, mapFind_eq_none_of_no_key hents hc,
    fun q hq => mapFind_update_erase_ne hc hq _ hs, ?_, ?_⟩
  · intro o ho
    have : o.order_id ∈ L.map (fun o => o.order_id) := List.mem_map.2 ⟨o, ho, rfl⟩
    simp [eraseIds, this]
  · intro j hj
    have : j ∉ L.map (fun o => o.order_id) := by
      intro hm
      obtain ⟨o, ho, hoj⟩ := List.mem_map.1 hm
      exact hj o ho hoj
    simp [eraseIds, this]

theorem mem_of_mapFind {cmp : Price → Price → Bool} (hc : StrictCmp cmp) {p : Price}
    {m : LevelMap} {v : List Order} (h : mapFind cmp p m = some v) : (p, v) ∈ m := by
  induction m with
  | nil => simp [mapFind] at h
  | cons x rest ih =>
    obtain ⟨k, w⟩ := x
    simp only [mapFind] at h
    split_ifs at h with h1 h2
    · exact List.mem_cons_of_mem _ (ih h)
    · have hkp : k = p := hc.total k p (by simpa using h2) (by simpa using h1)
      simp only [Option.some.injEq] at h
      subst hkp h
      exact List.mem_cons_self _ _

theorem length_mapUpdate_le (cmp : Price → Price → Bool) (p : Price)
    (f : List Order → List Order) (m : LevelMap) :
    (mapUpdate cmp p f m).length ≤ m.length + 1 := by
  induction m with
  | nil => simp [mapUpdate]
  | cons x rest ih =>
    obtain ⟨k, v⟩ := x
    simp only [mapUpdate]
    split_ifs <;> simp only [List.length_cons] <;> omega

/-! ## The claims -/

/-- C1 (what the code does instead): a full-book-Clear record `R` after the
first row is not applied. Processing an `R` record in a driver state whose
`first_row` flag is already cleared leaves the book as it is, for every state;
and on the stream `Add(id=1,B,100,10), R` the book after the `R` record still
holds the bid and the snapshot written for the `R` record shows the level
`(100, 10, 1)`. -/
theorem C1_later_clear_record_is_not_applied :
    (∀ (st : Driver) (ts : String) (side : Char) (price : Price) (size order_id : Int),
      st.first_row = false →
      (processRecord st ⟨ts, "R", side, price, size, order_id⟩).book = st.book) ∧
    (driverLoop initDriver
        [⟨"1", "A", 'B', 100, 10, 1⟩, ⟨"2", "R", 'N', 0, 0, 0⟩]).book.bids =
      [(100, [⟨1, 'B', 100, 10⟩])] ∧
    (driverLoop initDriver
        [⟨"1", "A", 'B', 100, 10, 1⟩, ⟨"2", "R", 'N', 0, 0, 0⟩]).book.order_map 1 =
      some ⟨1, 'B', 100, 10⟩ ∧
    (driverLoop initDriver
        [⟨"1", "A", 'B', 100, 10, 1⟩, ⟨"2", "R", 'N', 0, 0, 0⟩]).outfile.getLast? =
      some ⟨⟨"2", "R", 'N', 0, 0, 0⟩, [(100, 10, 1)], []⟩ := by
  refine ⟨?_, by decide, by decide, by decide⟩
  intro st ts side price size order_id h
  rcases hp : st.pending_records with _ | ⟨t, _ | ⟨f, tl⟩⟩ <;>
    simp [processRecord, h, hp, tripletTrade, emitSnapshot, regularAction]

/-- C2: the end-to-end scenario through the record loop, from the empty book
(whatever the pending buffer and the first-row flag are, and whatever the time
stamps and the fields of the Fill and Cancel records of the triplet are): after
`Add(1,B,100,10)` the levels are `([(100,10,1)], [])`, after `Add(2,B,100,5)`
they are `([(100,15,2)], [])`, after `Cancel(1)` they are `([(100,5,1)], [])`,
after `Trade(A,100,3)`, `Fill`, `Cancel` they are `([(100,2,1)], [])`; the ask
side is empty throughout and no row is written for the Trade and Fill records. -/
theorem C2_end_to_end_scenario (pending : List MBORecord) (first_row : Bool)
    (ts1 ts2 ts3 ts4 ts5 ts6 : String) (fside cside : Char) (fprice cprice : Price)
    (tid fsize fid csize cid : Int) :
    let a1 : MBORecord := ⟨ts1, "A", 'B', 100, 10, 1⟩
    let a2 : MBORecord := ⟨ts2, "A", 'B', 100, 5, 2⟩
    let c1 : MBORecord := ⟨ts3, "C", 'B', 100, 10, 1⟩
    let t : MBORecord := ⟨ts4, "T", 'A', 100, 3, tid⟩
    let f : MBORecord := ⟨ts5, "F", fside, fprice, fsize, fid⟩
    let c : MBORecord := ⟨ts6, "C", cside, cprice, csize, cid⟩
    let s0 : Driver := ⟨emptyBook, pending, first_row, [], []⟩
    let s1 := processRecord s0 a1
    let s2 := processRecord s1 a2
    let s3 := processRecord s2 c1
    let s4 := processRecord s3 t
    let s5 := processRecord s4 f
    let s6 := processRecord s5 c
    get_top10_levels s1.book = ([(100, 10, 1)], []) ∧
    get_top10_levels s2.book = ([(100, 15, 2)], []) ∧
    get_top10_levels s3.book = ([(100, 5, 1)], []) ∧
    get_top10_levels s6.book = ([(100, 2, 1)], []) ∧
    (get_top10_levels s4.book).2 = [] ∧ (get_top10_levels s5.book).2 = [] ∧
    s3.outfile =
      [⟨a1, [(100, 10, 1)], []⟩, ⟨a2, [(100, 15, 2)], []⟩, ⟨c1, [(100, 5, 1)], []⟩] ∧
    s4.outfile = s3.outfile ∧ s5.outfile = s3.outfile ∧
    s6.outfile = s3.outfile ++ [⟨c, [(100, 2, 1)], []⟩] := by
  intro a1 a2 c1 t f c s0 s1 s2 s3 s4 s5 s6
  have h1 : s1 = ⟨add_order emptyBook ⟨1, 'B', 100, 10⟩, [], false,
      [⟨a1, [(100, 10, 1)], []⟩], [BookCall.add_order ⟨1, 'B', 100, 10⟩]⟩ := by
    cases first_row <;> rcases pending with _ | ⟨x, _ | ⟨y, tl⟩⟩ <;> rfl
  have h2 : s2 = ⟨add_order (add_order emptyBook ⟨1, 'B', 100, 10⟩) ⟨2, 'B', 100, 5⟩, [],
      false, [⟨a1, [(100, 10, 1)], []⟩, ⟨a2, [(100, 15, 2)], []⟩],
      [BookCall.add_order ⟨1, 'B', 100, 10⟩, BookCall.add_order ⟨2, 'B', 100, 5⟩]⟩ := by
    show processRecord s1 a2 = _
    rw [h1]; rfl
  have h3 : s3 = ⟨cancel_order (add_order (add_order emptyBook ⟨1, 'B', 100, 10⟩)
        ⟨2, 'B', 100, 5⟩) 1, [], false,
      [⟨a1, [(100, 10, 1)], []⟩, ⟨a2, [(100, 15, 2)], []⟩, ⟨c1, [(100, 5, 1)], []⟩],
      [BookCall.add_order ⟨1, 'B', 100, 10⟩, BookCall.add_order ⟨2, 'B', 100, 5⟩,
        BookCall.cancel_order 1]⟩ := by
    show processRecord s2 c1 = _
    rw [h2]; rfl
  have h4 : s4 = { s3 with pending_records := [t] } := by
    show processRecord s3 t = _
    rw [h3]; rfl
  have h5 : s5 = { s3 with pending_records := [t, f] } := by
    show processRecord s4 f = _
    rw [h4, h3]; rfl
  have h6 : s6 = ⟨apply_trade s3.book 100 3 'A', [], false,
      s3.outfile ++ [⟨c, [(100, 2, 1)], []⟩],
      s3.calls ++ [BookCall.apply_trade 100 3 'A']⟩ := by
    show processRecord s5 c = _
    rw [h5, h3]; rfl
  rw [h6, h5, h4, h3, h2, h1]
  exact ⟨rfl, rfl, rfl, rfl, rfl, rfl, rfl, rfl, rfl, rfl⟩

/-- C3: index/level consistency is an invariant. After every sequence of
`add_order`, `modify_order`, `cancel_order`, `apply_trade` and `clear` calls
from the empty book in which no `add_order` uses an id that is in `order_map`
at that moment, (1) every id in `order_map` has exactly one order with that id
in the book, in the level given by the side and price of its index entry and
with the size of the index entry, and (2) every order of every bid or ask level
has its id in `order_map`. -/
theorem C3_index_level_consistency (calls : List BookCall)
    (hfresh : FreshAdds emptyBook calls) : Consistent (runCalls emptyBook calls) :=
  consistent_runCalls calls hfresh

/-- C3 at a concrete sequence: two adds, a modify, a trade that removes the
first order and reduces the second, a cancel, a clear and a new add of id 1. -/
theorem C3_index_level_consistency_witness :
    FreshAdds emptyBook
        [BookCall.add_order ⟨1, 'B', 100, 10⟩, BookCall.add_order ⟨2, 'B', 100, 5⟩,
          BookCall.modify_order 1 7, BookCall.apply_trade 100 8 'A',
          BookCall.cancel_order 2, BookCall.clear, BookCall.add_order ⟨1, 'A', 99, 4⟩] ∧
      Consistent (runCalls emptyBook
        [BookCall.add_order ⟨1, 'B', 100, 10⟩, BookCall.add_order ⟨2, 'B', 100, 5⟩,
          BookCall.modify_order 1 7, BookCall.apply_trade 100 8 'A',
          BookCall.cancel_order 2, BookCall.clear, BookCall.add_order ⟨1, 'A', 99, 4⟩]) :=
  ⟨⟨rfl, rfl, rfl, trivial⟩,
    C3_index_level_consistency _ ⟨rfl, rfl, rfl, trivial⟩⟩

/-- C4: `apply_trade` reduces the aggregate of the target level by exactly
`min(size, prior aggregate)`. For every book with non-negative resting sizes,
every trade size `>= 0` and every price with an existing level `L` on the
consumed side (bids for trade side `'A'`, asks for `'B'`), the sum of the sizes
resting at that price and side after `apply_trade` (an absent level has the
empty sequence, sum 0) is the sum before minus `min size (sum before)`. -/
theorem C4_trade_reduces_aggregate_by_min (b : OrderBook) (hwf : b.WF)
    (hnn : NonNegSizes b) (price : Price) (size : Int) (hsize : 0 ≤ size) :
    (∀ L, mapFind bidCmp price b.bids = some L →
      totalSize (mapGet bidCmp price (apply_trade b price size 'A').bids) =
        totalSize L - min size (totalSize L)) ∧
    (∀ L, mapFind askCmp price b.asks = some L →
      totalSize (mapGet askCmp price (apply_trade b price size 'B').asks) =
        totalSize L - min size (totalSize L)) := by
  constructor
  · intro L hL
    rw [mapGet_bids_apply_trade hwf price size hL]
    refine totalSize_consume (fun o ho => hnn o ?_) hsize _
    exact List.mem_append_left _ (mem_mapOrders_of_mem_mapGet (mapGet_of_mapFind hL ▸ ho))
  · intro L hL
    rw [mapGet_asks_apply_trade hwf price size hL]
    refine totalSize_consume (fun o ho => hnn o ?_) hsize _
    exact List.mem_append_right _ (mem_mapOrders_of_mem_mapGet (mapGet_of_mapFind hL ▸ ho))

/-- C4 on the sample book: a trade of 12 against the bids at 100 (sizes 10 and
5) leaves 15 - min 12 15 = 3. -/
theorem C4_trade_reduces_aggregate_by_min_witness :
    sampleBook.WF ∧ NonNegSizes sampleBook ∧ (0 : Int) ≤ 12 ∧
      mapFind bidCmp 100 sampleBook.bids = some [⟨1, 'B', 100, 10⟩, ⟨2, 'B', 100, 5⟩] ∧
      totalSize (mapGet bidCmp 100 (apply_trade sampleBook 100 12 'A').bids) =
        totalSize [⟨1, 'B', 100, 10⟩, ⟨2, 'B', 100, 5⟩] -
          min 12 (totalSize [⟨1, 'B', 100, 10⟩, ⟨2, 'B', 100, 5⟩]) :=
  ⟨sampleBook_wf, sampleBook_nonneg, by decide, rfl,
    (C4_trade_reduces_aggregate_by_min sampleBook sampleBook_wf sampleBook_nonneg 100 12
      (by decide)).1 _ rfl⟩

/-- C5: `apply_trade` consumes in strict arrival order. For every book that has
well-formed maps and satisfies the index/level consistency invariant, and every
trade against an existing level `L` (bids for trade side `'A'`, asks for `'B'`),
the sequence of the level afterwards is a suffix of `L`, unchanged except
possibly for a smaller size of its front order, which keeps its id, side and
price; the orders removed in front of it are exactly the orders whose ids were
erased from `order_map`; and the index size of the front order that remains
equals its level size. -/
theorem C5_trade_consumes_in_arrival_order (b : OrderBook) (hwf : b.WF)
    (hcons : Consistent b) (price : Price) (size : Int) :
    (∀ L, mapFind bidCmp price b.bids = some L →
      ConsumedInArrivalOrder b.order_map (apply_trade b price size 'A').order_map L
        (mapGet bidCmp price (apply_trade b price size 'A').bids)) ∧
    (∀ L, mapFind askCmp price b.asks = some L →
      ConsumedInArrivalOrder b.order_map (apply_trade b price size 'B').order_map L
        (mapGet askCmp price (apply_trade b price size 'B').asks)) := by
  have h := (consistent_iff b).1 hcons
  constructor
  · intro L hL
    obtain ⟨step, hom⟩ := apply_trade_step_A hwf price size hL
    rw [mapGet_bids_apply_trade hwf price size hL]
    exact consumed_in_arrival_order hwf h size
      (by simp [levelAt, sideOf, mapGet_of_mapFind hL]) step hom
  · intro L hL
    obtain ⟨step, hom⟩ := apply_trade_step_B hwf price size hL
    rw [mapGet_asks_apply_trade hwf price size hL]
    have hA : ¬ (('A' : Char) = 'B') := by decide
    exact consumed_in_arrival_order hwf h size
      (by simp [levelAt, sideOf, hA, mapGet_of_mapFind hL]) step hom

/-- C5 on the sample book: a trade of 12 against the bids at 100. -/
theorem C5_trade_consumes_in_arrival_order_witness :
    sampleBook.WF ∧ Consistent sampleBook ∧
      mapFind bidCmp 100 sampleBook.bids = some [⟨1, 'B', 100, 10⟩, ⟨2, 'B', 100, 5⟩] ∧
      ConsumedInArrivalOrder sampleBook.order_map
        (apply_trade sampleBook 100 12 'A').order_map
        [⟨1, 'B', 100, 10⟩, ⟨2, 'B', 100, 5⟩]
        (mapGet bidCmp 100 (apply_trade sampleBook 100 12 'A').bids) :=
  ⟨sampleBook_wf, sampleBook_consistent, rfl,
    (C5_trade_consumes_in_arrival_order sampleBook sampleBook_wf sampleBook_consistent
      100 12).1 _ rfl⟩

/-- C6: a Trade record mutates the book only as part of a complete consecutive
triplet. For every stream `pre` of well-formed records processed from the
initial state and every next record `r`: the calls `cs` made while processing
`r` are what is appended to the call log and what changes the book;
`apply_trade` is among them if and only if `r` has action `C` and the two
records before it are a `T` record with a side other than `'N'` followed by an
`F` record; such a call is the only call of the iteration and takes its price,
size and side from that `T` record; and processing a `T` record makes no call
and leaves the book unchanged. -/
theorem C6_trade_applies_only_in_complete_triplet (pre : List MBORecord) (r : MBORecord) :
    ∃ cs, (processRecord (driverLoop initDriver pre) r).calls =
        (driverLoop initDriver pre).calls ++ cs ∧
      (processRecord (driverLoop initDriver pre) r).book =
        runCalls (driverLoop initDriver pre).book cs ∧
      ((∃ p s sd, BookCall.apply_trade p s sd ∈ cs) ↔
        (r.action = "C" ∧ ∃ pre' t f, pre = pre' ++ [t, f] ∧ t.action = "T" ∧
          f.action = "F" ∧ t.side ≠ 'N')) ∧
      (∀ p s sd, BookCall.apply_trade p s sd ∈ cs →
        ∃ pre' t f, pre = pre' ++ [t, f] ∧ t.action = "T" ∧ f.action = "F" ∧
          r.action = "C" ∧ p = t.price ∧ s = t.size ∧ sd = t.side ∧
          cs = [BookCall.apply_trade t.price t.size t.side]) ∧
      (r.action = "T" →
        cs = [] ∧ (processRecord (driverLoop initDriver pre) r).book =
          (driverLoop initDriver pre).book) := by
  obtain ⟨hcalls, hbook⟩ := processRecord_calls_book (driverLoop initDriver pre) r
  refine ⟨stepCalls (driverLoop initDriver pre) r, hcalls, hbook, ?_, ?_, ?_⟩
  · constructor
    · rintro ⟨p, s, sd, h⟩
      obtain ⟨hC, t, f, tl, hp, ht, hf, hN, _, _, _⟩ := apply_trade_mem_stepCalls.1 h
      obtain ⟨pre', hpre, _, _⟩ := (pending_pair_iff pre t f).1 ⟨tl, hp, ht, hf⟩
      exact ⟨hC, pre', t, f, hpre, ht, hf, hN⟩
    · rintro ⟨hC, pre', t, f, hpre, ht, hf, hN⟩
      obtain ⟨tl, hp, _, _⟩ := (pending_pair_iff pre t f).2 ⟨pre', hpre, ht, hf⟩
      exact ⟨t.price, t.size, t.side,
        apply_trade_mem_stepCalls.2 ⟨hC, t, f, tl, hp, ht, hf, hN, rfl, rfl, rfl⟩⟩
  · intro p s sd h
    obtain ⟨hC, t, f, tl, hp, ht, hf, hN, h1, h2, h3⟩ := apply_trade_mem_stepCalls.1 h
    obtain ⟨pre', hpre, _, _⟩ := (pending_pair_iff pre t f).1 ⟨tl, hp, ht, hf⟩
    refine ⟨pre', t, f, hpre, ht, hf, hC, h1, h2, h3, ?_⟩
    have htt : tripletTrade r (driverLoop initDriver pre).pending_records = some t :=
      tripletTrade_eq_some.2 ⟨hC, ht, f, tl, hp, hf⟩
    simp [stepCalls, hC, htt, hN]
  · intro hT
    have hcs : stepCalls (driverLoop initDriver pre) r = [] := by simp [stepCalls, hT]
    refine ⟨hcs, ?_⟩
    rw [hbook, hcs]; rfl

/-- C7: a completed triplet is exactly one consume taken from the Trade record.
For every driver state and every three consecutive records `t` (action `T`),
`f` (action `F`), `c` (action `C`), the book after processing them is
`apply_trade` with the price, size and side of `t` on the prior book when the
side of `t` is not `'N'` and the prior book when it is `'N'`, and that
`apply_trade` is the only member call made: no field of `f` or `c` enters, in
particular `cancel_order(c.order_id)` is not called. -/
theorem C7_triplet_is_one_consume_from_trade (st : Driver) (t f c : MBORecord)
    (ht : t.action = "T") (hf : f.action = "F") (hc : c.action = "C") :
    (processRecord (processRecord (processRecord st t) f) c).book =
        (if t.side ≠ 'N' then apply_trade st.book t.price t.size t.side else st.book) ∧
      (processRecord (processRecord (processRecord st t) f) c).calls =
        st.calls ++
          (if t.side ≠ 'N' then [BookCall.apply_trade t.price t.size t.side] else []) := by
  rw [processRecord_T st ht, processRecord_F_after_T _ ht hf rfl,
    processRecord_C_triplet _ [] ht hf hc rfl]
  by_cases hN : t.side = 'N' <;> simp [emitSnapshot, hN]

/-- C7 on the sample book: the triplet `T(A,100,12)`, `F`, `C(order_id = 2)`
is the trade of 12 at 100 and order 2 stays in the index. -/
theorem C7_triplet_is_one_consume_from_trade_witness :
    (processRecord (processRecord (processRecord ⟨sampleBook, [], false, [], []⟩
        ⟨"1", "T", 'A', 100, 12, 0⟩) ⟨"2", "F", 'B', 100, 12, 1⟩)
        ⟨"3", "C", 'B', 100, 12, 2⟩).book =
        (if ('A' : Char) ≠ 'N' then apply_trade sampleBook 100 12 'A' else sampleBook) ∧
      (processRecord (processRecord (processRecord ⟨sampleBook, [], false, [], []⟩
        ⟨"1", "T", 'A', 100, 12, 0⟩) ⟨"2", "F", 'B', 100, 12, 1⟩)
        ⟨"3", "C", 'B', 100, 12, 2⟩).calls =
        [] ++ (if ('A' : Char) ≠ 'N' then [BookCall.apply_trade 100 12 'A'] else []) :=
  C7_triplet_is_one_consume_from_trade ⟨sampleBook, [], false, [], []⟩
    ⟨"1", "T", 'A', 100, 12, 0⟩ ⟨"2", "F", 'B', 100, 12, 1⟩ ⟨"3", "C", 'B', 100, 12, 2⟩
    rfl rfl rfl

/-- C8: level ordering. In every book reachable from the empty book by
`add_order`, `modify_order`, `cancel_order`, `apply_trade` and `clear` calls
(any calls, duplicate ids included) the bid levels returned by
`get_top10_levels` have strictly descending prices and the ask levels strictly
ascending prices, so no price appears twice on a side. -/
theorem C8_levels_strictly_ordered (calls : List BookCall) :
    ((get_top10_levels (runCalls emptyBook calls)).1.map (fun row => row.1)).Pairwise
        (fun a b => a > b) ∧
      ((get_top10_levels (runCalls emptyBook calls)).2.map (fun row => row.1)).Pairwise
        (fun a b => a < b) := by
  have hwf := wf_runCalls wf_emptyBook calls
  rw [get_top10_levels_eq]
  exact ⟨prices_take_pairwise hwf.1 _ (fun a b h => by simpa [bidCmp] using h),
    prices_take_pairwise hwf.2 _ (fun a b h => by simpa [askCmp] using h)⟩

/-- C9: depth limit. For every book (with well-formed maps) `get_top10_levels`
returns exactly `min 10 k` levels for a side with `k` price levels, namely the
rows of the first ten entries of the side in its priority order, and they are
the best ones: every level of the side whose price is not among the returned
prices has a strictly lower price than every returned bid level, respectively
a strictly higher price than every returned ask level. -/
theorem C9_depth_limit_best_levels (b : OrderBook) (hwf : b.WF) :
    (get_top10_levels b).1.length = min 10 b.bids.length ∧
      (get_top10_levels b).2.length = min 10 b.asks.length ∧
      (get_top10_levels b).1 = (b.bids.take 10).map levelRow ∧
      (get_top10_levels b).2 = (b.asks.take 10).map levelRow ∧
      (∀ row ∈ (get_top10_levels b).1, ∀ e ∈ b.bids,
        e.1 ∉ (get_top10_levels b).1.map (fun r => r.1) → e.1 < row.1) ∧
      (∀ row ∈ (get_top10_levels b).2, ∀ e ∈ b.asks,
        e.1 ∉ (get_top10_levels b).2.map (fun r => r.1) → row.1 < e.1) := by
  rw [get_top10_levels_eq]
  refine ⟨by simp, by simp, rfl, rfl, ?_, ?_⟩
  · intro row hrow e he hnot
    simpa [bidCmp] using beyond_take_after hwf.1 hrow he hnot
  · intro row hrow e he hnot
    simpa [askCmp] using beyond_take_after hwf.2 hrow he hnot

/-- C9 on a book with twelve bid levels (prices 0 to 11) and no ask: ten bid
rows are returned and the levels at prices 0 and 1 are below all of them. -/
theorem C9_depth_limit_best_levels_witness :
    deepBook.WF ∧
      (get_top10_levels deepBook).1.length = min 10 deepBook.bids.length ∧
      (get_top10_levels deepBook).2.length = min 10 deepBook.asks.length ∧
      (get_top10_levels deepBook).1 = (deepBook.bids.take 10).map levelRow ∧
      (get_top10_levels deepBook).2 = (deepBook.asks.take 10).map levelRow ∧
      (∀ row ∈ (get_top10_levels deepBook).1, ∀ e ∈ deepBook.bids,
        e.1 ∉ (get_top10_levels deepBook).1.map (fun r => r.1) → e.1 < row.1) ∧
      (∀ row ∈ (get_top10_levels deepBook).2, ∀ e ∈ deepBook.asks,
        e.1 ∉ (get_top10_levels deepBook).2.map (fun r => r.1) → row.1 < e.1) :=
  ⟨deepBook_wf, C9_depth_limit_best_levels deepBook deepBook_wf⟩

/-- C10 as stated fails on the 32-bit accumulator: after `add_order` of two
bids with distinct ids and size 2147483647 at price 100, both orders rest and
none is cancelled, the sum of their sizes is 4294967294, and
`get_top10_levels` reports the bid row `(100, -2, 2)`. -/
theorem C10_aggregate_wraps_beyond_int_range :
    AddsAndCancelsAt 'B' 100
        [BookCall.add_order ⟨1, 'B', 100, 2147483647⟩,
          BookCall.add_order ⟨2, 'B', 100, 2147483647⟩] ∧
      liveOrders
        [BookCall.add_order ⟨1, 'B', 100, 2147483647⟩,
          BookCall.add_order ⟨2, 'B', 100, 2147483647⟩] =
        [⟨1, 'B', 100, 2147483647⟩, ⟨2, 'B', 100, 2147483647⟩] ∧
      ((liveOrders
        [BookCall.add_order ⟨1, 'B', 100, 2147483647⟩,
          BookCall.add_order ⟨2, 'B', 100, 2147483647⟩]).map (fun o => o.size)).sum =
        4294967294 ∧
      get_top10_levels (runCalls emptyBook
        [BookCall.add_order ⟨1, 'B', 100, 2147483647⟩,
          BookCall.add_order ⟨2, 'B', 100, 2147483647⟩]) = ([(100, -2, 2)], []) := by
  refine ⟨?_, by decide, by decide, by decide⟩
  intro c hc
  simp only [List.mem_cons, List.mem_singleton, List.not_mem_nil, or_false] at hc
  rcases hc with rfl | rfl
  · exact Or.inl ⟨_, rfl, rfl, rfl⟩
  · exact Or.inl ⟨_, rfl, rfl, rfl⟩

/-- C10, amended: level aggregation within the range of `int`. After every
sequence, from the empty book, of `add_order` calls that all share one side and
one price, interleaved with `cancel_order` calls, if at least one added order
has not been cancelled and the sum of the sizes of the added and not cancelled
orders lies in the range of a 32-bit `int`, then `get_top10_levels` reports
exactly one level, on that side (bids for `'B'`, asks otherwise) and at that
price, whose aggregate size is that sum and whose order count is the number of
those orders; the other side is empty. -/
theorem C10_level_aggregation_in_int_range (side : Char) (price : Price)
    (calls : List BookCall) (hcalls : AddsAndCancelsAt side price calls)
    (hlive : liveOrders calls ≠ [])
    (hlo : -2147483648 ≤ ((liveOrders calls).map (fun o => o.size)).sum)
    (hhi : ((liveOrders calls).map (fun o => o.size)).sum < 2147483648) :
    get_top10_levels (runCalls emptyBook calls) =
      if side = 'B' then
        ([(price, ((liveOrders calls).map (fun o => o.size)).sum,
            ((liveOrders calls).length : Int))], [])
      else
        ([], [(price, ((liveOrders calls).map (fun o => o.size)).sum,
            ((liveOrders calls).length : Int))]) := by
  have h := oneLevel_runCalls calls hcalls [] emptyBook (oneLevel_emptyBook side price)
  simp only [List.filter_nil, List.nil_append] at h
  obtain ⟨hb, ha, _, _⟩ := h
  have hsum := total_size_of_range hlo hhi
  by_cases hB : side = 'B'
  · simp only [hB, if_true] at hb ha ⊢
    simp only [get_top10_levels, hb, ha, get_top10_levels_single price _ hlive, hsum]
    rfl
  · simp only [hB, if_false] at hb ha ⊢
    simp only [get_top10_levels, hb, ha, get_top10_levels_single price _ hlive, hsum]
    rfl

/-- C10 amended, on the sequence add 1 (size 10), add 2 (size 5), cancel 1,
add 3 (size 7), all bids at 100: one bid level `(100, 12, 2)`. -/
theorem C10_level_aggregation_in_int_range_witness :
    get_top10_levels (runCalls emptyBook
        [BookCall.add_order ⟨1, 'B', 100, 10⟩, BookCall.add_order ⟨2, 'B', 100, 5⟩,
          BookCall.cancel_order 1, BookCall.add_order ⟨3, 'B', 100, 7⟩]) =
      ([(100, 12, 2)], []) :=
  C10_level_aggregation_in_int_range 'B' 100
    [BookCall.add_order ⟨1, 'B', 100, 10⟩, BookCall.add_order ⟨2, 'B', 100, 5⟩,
      BookCall.cancel_order 1, BookCall.add_order ⟨3, 'B', 100, 7⟩]
    (by
      intro c hc
      simp only [List.mem_cons, List.mem_singleton, List.not_mem_nil, or_false] at hc
      rcases hc with rfl | rfl | rfl | rfl
      · exact Or.inl ⟨_, rfl, rfl, rfl⟩
      · exact Or.inl ⟨_, rfl, rfl, rfl⟩
      · exact Or.inr ⟨_, rfl⟩
      · exact Or.inl ⟨_, rfl, rfl, rfl⟩)
    (by decide) (by decide) (by decide)

/-- C11: cancelling the last order of a level removes the level. For every
book with well-formed maps that satisfies the index/level consistency
invariant and every indexed id whose order is the only order resting at the
side and price of its index entry, after `cancel_order(id)` the id is no longer
in `order_map`, the map of that side has no entry at that price (not even an
empty one), and the output of `get_top10_levels` for that side has no row at
that price. -/
theorem C11_cancel_last_order_removes_level (b : OrderBook) (hwf : b.WF)
    (hcons : Consistent b) (id : Int) (e o : Order) (he : b.order_map id = some e)
    (honly : levelAt b e.side e.price = [o]) :
    (cancel_order b id).order_map id = none ∧
      (∀ ent ∈ sideLevels (cancel_order b id) e.side, ent.1 ≠ e.price) ∧
      mapFind (if e.side = 'B' then bidCmp else askCmp) e.price
        (sideLevels (cancel_order b id) e.side) = none ∧
      (∀ row ∈ sideRows (cancel_order b id) e.side, row.1 ≠ e.price) := by
  have h := (consistent_iff b).1 hcons
  obtain ⟨_, w, hw, hwid, _⟩ := (h id).2 e he
  rw [honly, List.mem_singleton] at hw
  subst hw
  have hrem : removeId id [w] = [] := by simp [removeId, hwid]
  have hents : ∀ ent ∈ sideLevels (cancel_order b id) e.side, ent.1 ≠ e.price := by
    intro ent hent
    by_cases hB : e.side = 'B'
    · simp only [sideLevels, hB, if_true, cancel_order, he] at hent
      simp only [levelAt, hB, if_true] at honly
      refine no_key_after_erase bidCmp_strict (sortedBy_mapUpdate bidCmp_strict _ _ hwf.1) ?_ hent
      rw [mapGet_mapUpdate bidCmp_strict, if_pos rfl, honly, hrem]
    · simp only [sideLevels, hB, if_false, cancel_order, he] at hent
      simp only [levelAt, hB, if_false] at honly
      refine no_key_after_erase askCmp_strict (sortedBy_mapUpdate askCmp_strict _ _ hwf.2) ?_ hent
      rw [mapGet_mapUpdate askCmp_strict, if_pos rfl, honly, hrem]
  refine ⟨?_, hents, ?_, ?_⟩
  · rw [(cancel_order_step hwf he).2]; simp [indexErase]
  · by_cases hB : e.side = 'B'
    · simp only [hB, if_true]
      exact mapFind_eq_none_of_no_key (by simpa [hB] using hents) bidCmp_strict
    · simp only [hB, if_false]
      exact mapFind_eq_none_of_no_key (by simpa [hB] using hents) askCmp_strict
  · intro row hrow
    obtain ⟨ent, hent, rfl⟩ := mem_sideRows hrow
    exact hents ent hent

/-- C11 on the sample book: cancelling ask 3, alone at 101, removes the ask
level at 101. -/
theorem C11_cancel_last_order_removes_level_witness :
    sampleBook.WF ∧ Consistent sampleBook ∧
      sampleBook.order_map 3 = some ⟨3, 'A', 101, 7⟩ ∧
      levelAt sampleBook 'A' 101 = [⟨3, 'A', 101, 7⟩] ∧
      (cancel_order sampleBook 3).order_map 3 = none ∧
      (∀ ent ∈ sideLevels (cancel_order sampleBook 3) 'A', ent.1 ≠ 101) ∧
      mapFind (if ('A' : Char) = 'B' then bidCmp else askCmp) 101
        (sideLevels (cancel_order sampleBook 3) 'A') = none ∧
      (∀ row ∈ sideRows (cancel_order sampleBook 3) 'A', row.1 ≠ 101) :=
  ⟨sampleBook_wf, sampleBook_consistent, rfl, rfl,
    C11_cancel_last_order_removes_level sampleBook sampleBook_wf sampleBook_consistent 3
      ⟨3, 'A', 101, 7⟩ ⟨3, 'A', 101, 7⟩ rfl rfl⟩

/-- C12 as stated fails: after `add_order(1,B,100,10)`, `add_order(1,B,100,5)`
(the id is reused while it rests), `apply_trade(100,10,'A')`,
`apply_trade(100,2,'A')` and `modify_order(1,7)` the ask side holds an empty
level at price 0 and `get_top10_levels` reports the ask row `(0, 0, 0)`. -/
theorem C12_empty_level_after_reused_id :
    (runCalls emptyBook
        [BookCall.add_order ⟨1, 'B', 100, 10⟩, BookCall.add_order ⟨1, 'B', 100, 5⟩,
          BookCall.apply_trade 100 10 'A', BookCall.apply_trade 100 2 'A',
          BookCall.modify_order 1 7]).asks = [(0, [])] ∧
      get_top10_levels (runCalls emptyBook
        [BookCall.add_order ⟨1, 'B', 100, 10⟩, BookCall.add_order ⟨1, 'B', 100, 5⟩,
          BookCall.apply_trade 100 10 'A', BookCall.apply_trade 100 2 'A',
          BookCall.modify_order 1 7]) = ([(100, 3, 1)], [(0, 0, 0)]) ∧
      ¬ NoEmptyLevel (runCalls emptyBook
        [BookCall.add_order ⟨1, 'B', 100, 10⟩, BookCall.add_order ⟨1, 'B', 100, 5⟩,
          BookCall.apply_trade 100 10 'A', BookCall.apply_trade 100 2 'A',
          BookCall.modify_order 1 7]) := by
  refine ⟨by decide, by decide, ?_⟩
  intro h
  exact h (0, []) (Or.inr (by decide)) rfl

/-- C12, amended: no empty level exists in a book reached without reusing a
resting id. In every book reachable from the empty book by `add_order`,
`modify_order`, `cancel_order`, `apply_trade` and `clear` calls in which no
`add_order` uses an id that is in `order_map` at that moment, every price level
present in `bids` or `asks` holds at least one order, and no row returned by
`get_top10_levels` has order count 0. -/
theorem C12_no_empty_level_without_reused_id (calls : List BookCall)
    (hfresh : FreshAdds emptyBook calls) :
    NoEmptyLevel (runCalls emptyBook calls) ∧
      (∀ row ∈ (get_top10_levels (runCalls emptyBook calls)).1, row.2.2 ≠ 0) ∧
      (∀ row ∈ (get_top10_levels (runCalls emptyBook calls)).2, row.2.2 ≠ 0) := by
  have h := noEmpty_runCalls wf_emptyBook idOK_emptyBook noEmpty_emptyBook calls hfresh
  rw [get_top10_levels_eq]
  refine ⟨h, ?_, ?_⟩
  · intro row hrow
    obtain ⟨ent, hent, rfl⟩ := row_price_mem hrow
    have := h ent (Or.inl hent)
    simpa [levelRow] using this
  · intro row hrow
    obtain ⟨ent, hent, rfl⟩ := row_price_mem hrow
    have := h ent (Or.inr hent)
    simpa [levelRow] using this

/-- C12 amended, on a sequence without reused ids that empties a level by a
trade and another by a cancel. -/
theorem C12_no_empty_level_without_reused_id_witness :
    FreshAdds emptyBook
        [BookCall.add_order ⟨1, 'B', 100, 10⟩, BookCall.add_order ⟨2, 'A', 101, 5⟩,
          BookCall.modify_order 1 7, BookCall.apply_trade 100 8 'A',
          BookCall.cancel_order 2, BookCall.add_order ⟨1, 'A', 99, 4⟩] ∧
      NoEmptyLevel (runCalls emptyBook
        [BookCall.add_order ⟨1, 'B', 100, 10⟩, BookCall.add_order ⟨2, 'A', 101, 5⟩,
          BookCall.modify_order 1 7, BookCall.apply_trade 100 8 'A',
          BookCall.cancel_order 2, BookCall.add_order ⟨1, 'A', 99, 4⟩]) :=
  ⟨⟨rfl, rfl, rfl, trivial⟩,
    (C12_no_empty_level_without_reused_id
      [BookCall.add_order ⟨1, 'B', 100, 10⟩, BookCall.add_order ⟨2, 'A', 101, 5⟩,
        BookCall.modify_order 1 7, BookCall.apply_trade 100 8 'A',
        BookCall.cancel_order 2, BookCall.add_order ⟨1, 'A', 99, 4⟩]
      ⟨rfl, rfl, rfl, trivial⟩).1⟩

/-- C13: snapshot emission rule. For every stream `pre` of well-formed records
processed from the initial state and every next record `r`: no row is written
for `r` when it is absorbed, that is when it is a `T` record, an `F` record
directly following a `T` record, or an `R` record in first position; for every
other record, the `C` record completing a triplet included, exactly one row is
appended, tagged with `r` and holding the levels of the book as it is after
`r` has been processed. -/
theorem C13_snapshot_emission_rule (pre : List MBORecord) (r : MBORecord) :
    (Absorbed pre r →
      (processRecord (driverLoop initDriver pre) r).outfile =
        (driverLoop initDriver pre).outfile) ∧
    (¬ Absorbed pre r →
      (processRecord (driverLoop initDriver pre) r).outfile =
        (driverLoop initDriver pre).outfile ++
          [⟨r, (get_top10_levels (processRecord (driverLoop initDriver pre) r).book).1,
            (get_top10_levels (processRecord (driverLoop initDriver pre) r).book).2⟩]) := by
  have hiff : Absorbed pre r ↔
      ((driverLoop initDriver pre).first_row = true ∧ r.action = "R") ∨ r.action = "T" ∨
        (r.action = "F" ∧ (driverLoop initDriver pre).pending_records.getLast?.map
          (fun r => r.action) = some "T") := by
    rw [first_row_iff, pending_last_T_iff]
    unfold Absorbed
    constructor
    · rintro (h | h | h)
      · exact Or.inr (Or.inl h)
      · exact Or.inr (Or.inr h)
      · exact Or.inl h
    · rintro (h | h | h)
      · exact Or.inr (Or.inr h)
      · exact Or.inl h
      · exact Or.inr (Or.inl h)
  obtain ⟨ha, hb⟩ := processRecord_outfile (driverLoop initDriver pre) r
  exact ⟨fun h => ha (hiff.1 h), fun h => hb (fun h' => h (hiff.2 h'))⟩

/-- C14: unknown identifiers are ignored. For every book and every id that is
not in `order_map`, `modify_order` and `cancel_order` each return the book as it
is: `bids`, `asks` and `order_map` are unchanged (both functions are total, no
error is signalled). -/
theorem C14_unknown_id_is_ignored (b : OrderBook) (order_id : Int) (new_size : Int)
    (h : b.order_map order_id = none) :
    modify_order b order_id new_size = b ∧ cancel_order b order_id = b := by
  simp [modify_order, cancel_order, h]

/-- C14 on the sample book with the unknown id 99. -/
theorem C14_unknown_id_is_ignored_witness :
    sampleBook.order_map 99 = none ∧
      modify_order sampleBook 99 4 = sampleBook ∧ cancel_order sampleBook 99 = sampleBook :=
  ⟨rfl, C14_unknown_id_is_ignored sampleBook 99 4 rfl⟩

/-- C15: `modify_order` updates in place. For every book satisfying the
index/level consistency invariant, every id in `order_map` and every new size,
after `modify_order` both sides have the same levels in the same order, every
level has the same orders at the same positions, except that the order with
that id has the new size; the index entry of the id has the new size and every
other index entry is unchanged; in particular the order keeps its position in
the level named by its index entry. -/
theorem C15_modify_updates_in_place (b : OrderBook) (hcons : Consistent b) (order_id : Int) (e : Order)
    (he : b.order_map order_id = some e) (new_size : Int) :
    (modify_order b order_id new_size).bids = resizeLevels order_id new_size b.bids ∧
      (modify_order b order_id new_size).asks = resizeLevels order_id new_size b.asks ∧
      (modify_order b order_id new_size).order_map order_id =
        some { e with size := new_size } ∧
      (∀ j, j ≠ order_id → (modify_order b order_id new_size).order_map j = b.order_map j) ∧
      (∃ (i : Nat) (o : Order), (levelAt b e.side e.price)[i]? = some o ∧ o.order_id = order_id ∧
        (levelAt (modify_order b order_id new_size) e.side e.price)[i]? =
          some { o with size := new_size }) := by
  have h := (consistent_iff b).1 hcons
  obtain ⟨hc1, w, hw, hwid, _⟩ := (h order_id).2 e he
  have hsum : idCount order_id (mapOrders b.bids) + idCount order_id (mapOrders b.asks) = 1 := by
    rw [← idCount_append]; exact hc1
  have hmaps : (modify_order b order_id new_size).bids = resizeLevels order_id new_size b.bids ∧
      (modify_order b order_id new_size).asks = resizeLevels order_id new_size b.asks := by
    by_cases hB : e.side = 'B'
    · simp only [levelAt, hB, if_true] at hw
      have hpos : 0 < idCount order_id (mapOrders b.bids) :=
        idCount_pos_iff.2 ⟨w, mem_mapOrders_of_mem_mapGet hw, hwid⟩
      simp only [modify_order, he, hB, if_true]
      exact ⟨mapUpdate_setFirstSize_eq new_size (by omega) ⟨w, hw, hwid⟩,
        (resizeLevels_of_count_zero new_size (by omega)).symm⟩
    · simp only [levelAt, hB, if_false] at hw
      have hpos : 0 < idCount order_id (mapOrders b.asks) :=
        idCount_pos_iff.2 ⟨w, mem_mapOrders_of_mem_mapGet hw, hwid⟩
      simp only [modify_order, he, hB, if_false]
      exact ⟨(resizeLevels_of_count_zero new_size (by omega)).symm,
        mapUpdate_setFirstSize_eq new_size (by omega) ⟨w, hw, hwid⟩⟩
  have hom : (modify_order b order_id new_size).order_map =
      indexSet b.order_map order_id { e with size := new_size } := by
    simp only [modify_order, he]; split <;> rfl
  refine ⟨hmaps.1, hmaps.2, by rw [hom]; simp [indexSet], ?_, ?_⟩
  · intro j hj; rw [hom]; simp [indexSet, hj]
  · obtain ⟨i, hi⟩ := List.mem_iff_getElem?.1 hw
    refine ⟨i, w, hi, hwid, ?_⟩
    rw [levelAt_of_resized hmaps.1 hmaps.2, List.getElem?_map, hi]
    simp [resizeOrder, hwid]

/-- C15 on the sample book: bid 1 (front of the level at 100, size 10) is
resized to 20 and stays in front of bid 2. -/
theorem C15_modify_updates_in_place_witness :
    Consistent sampleBook ∧ sampleBook.order_map 1 = some ⟨1, 'B', 100, 10⟩ ∧
      (modify_order sampleBook 1 20).bids = resizeLevels 1 20 sampleBook.bids ∧
      (modify_order sampleBook 1 20).bids =
        [(100, [⟨1, 'B', 100, 20⟩, ⟨2, 'B', 100, 5⟩])] :=
  ⟨sampleBook_consistent, rfl,
    (C15_modify_updates_in_place sampleBook sampleBook_consistent 1 ⟨1, 'B', 100, 10⟩ rfl
      20).1, by decide⟩

/-- C16: `add_order` appends with time priority. For every book and every
order `o`, after `add_order(o)` the level of the side of `o` at the price of
`o` exists and is the prior sequence of that level (empty if there was none)
followed by `o` as last element; every other level of both sides is as before
(the map of the other side is unchanged); `order_map` maps the id of `o` to `o`
and every other index entry is unchanged. -/
theorem C16_add_appends_with_time_priority (b : OrderBook) (o : Order) :
    mapFind (sideCmp o.side) o.price (sideLevels (add_order b o) o.side) =
        some (levelAt b o.side o.price ++ [o]) ∧
      (∀ side q, ¬ (decide (side = 'B') = decide (o.side = 'B') ∧ q = o.price) →
        mapFind (sideCmp side) q (sideLevels (add_order b o) side) =
          mapFind (sideCmp side) q (sideLevels b side)) ∧
      (o.side = 'B' → (add_order b o).asks = b.asks) ∧
      (o.side ≠ 'B' → (add_order b o).bids = b.bids) ∧
      (add_order b o).order_map o.order_id = some o ∧
      (∀ j, j ≠ o.order_id → (add_order b o).order_map j = b.order_map j) := by
  have hom : (add_order b o).order_map = indexSet b.order_map o.order_id o := by
    simp only [add_order]; split <;> rfl
  refine ⟨?_, ?_, ?_, ?_, by rw [hom]; simp [indexSet], ?_⟩
  · by_cases hB : o.side = 'B'
    · simp only [sideCmp, sideLevels, levelAt, hB, if_true, add_order]
      exact mapFind_mapUpdate_same bidCmp_strict _ _ _
    · simp only [sideCmp, sideLevels, levelAt, hB, if_false, add_order]
      exact mapFind_mapUpdate_same askCmp_strict _ _ _
  · intro side q hne
    by_cases hB : o.side = 'B' <;> by_cases hS : side = 'B'
    · have hq : q ≠ o.price := fun h => hne ⟨by simp [hB, hS], h⟩
      simp only [sideCmp, sideLevels, hB, hS, if_true, add_order]
      exact mapFind_mapUpdate_ne bidCmp_strict hq _ _
    · simp [sideCmp, sideLevels, hB, hS, add_order]
    · simp [sideCmp, sideLevels, hB, hS, add_order]
    · have hq : q ≠ o.price := fun h => hne ⟨by simp [hB, hS], h⟩
      simp only [sideCmp, sideLevels, hB, hS, if_false, add_order]
      exact mapFind_mapUpdate_ne askCmp_strict hq _ _
  · intro hB; simp [add_order, hB]
  · intro hB; simp [add_order, hB]
  · intro j hj; rw [hom]; simp [indexSet, hj]

/-- C17: excess trade volume is dropped. For every book with well-formed maps
and non-negative resting sizes and every `apply_trade` whose size is strictly
greater than the aggregate size of an existing level `L` at the traded price on
the consumed side (bids for `'A'`, asks for `'B'`): afterwards that side has no
entry at that price, every other level of that side and the whole other side
are unchanged, the ids of all orders of `L` are no longer in `order_map`, and
every other index entry is unchanged; the function is total, no error is
signalled. -/
theorem C17_excess_trade_volume_is_dropped (b : OrderBook) (hwf : b.WF) (hnn : NonNegSizes b)
    (price : Price) (size : Int) :
    (∀ L, mapFind bidCmp price b.bids = some L → totalSize L < size →
      LevelDropped bidCmp price L b.bids (apply_trade b price size 'A').bids b.order_map
          (apply_trade b price size 'A').order_map ∧
        (apply_trade b price size 'A').asks = b.asks) ∧
    (∀ L, mapFind askCmp price b.asks = some L → totalSize L < size →
      LevelDropped askCmp price L b.asks (apply_trade b price size 'B').asks b.order_map
          (apply_trade b price size 'B').order_map ∧
        (apply_trade b price size 'B').bids = b.bids) := by
  constructor
  · intro L hL hlt
    have hLnn : ∀ o ∈ L, 0 ≤ o.size := fun o ho => hnn o
      (List.mem_append_left _ (mem_mapOrders_of_mem_mapGet (mapGet_of_mapFind hL ▸ ho)))
    have hc := consume_excess hLnn hlt b.order_map
    simp only [apply_trade, hL, if_true, hc]
    exact ⟨levelDropped_of_excess bidCmp_strict hwf.1 price L b.order_map, trivial⟩
  · intro L hL hlt
    have hLnn : ∀ o ∈ L, 0 ≤ o.size := fun o ho => hnn o
      (List.mem_append_right _ (mem_mapOrders_of_mem_mapGet (mapGet_of_mapFind hL ▸ ho)))
    have hc := consume_excess hLnn hlt b.order_map
    have hBA : ¬ (('B' : Char) = 'A') := by decide
    simp only [apply_trade, hL, hBA, if_true, if_false, hc]
    exact ⟨levelDropped_of_excess askCmp_strict hwf.2 price L b.order_map, trivial⟩

/-- C17 on the sample book: a trade of 16 against the bids at 100, whose sizes
sum up to 15. -/
theorem C17_excess_trade_volume_is_dropped_witness :
    sampleBook.WF ∧ NonNegSizes sampleBook ∧
      mapFind bidCmp 100 sampleBook.bids = some [⟨1, 'B', 100, 10⟩, ⟨2, 'B', 100, 5⟩] ∧
      totalSize [⟨1, 'B', 100, 10⟩, ⟨2, 'B', 100, 5⟩] < 16 ∧
      LevelDropped bidCmp 100 [⟨1, 'B', 100, 10⟩, ⟨2, 'B', 100, 5⟩] sampleBook.bids
        (apply_trade sampleBook 100 16 'A').bids sampleBook.order_map
        (apply_trade sampleBook 100 16 'A').order_map ∧
      (apply_trade sampleBook 100 16 'A').asks = sampleBook.asks :=
  ⟨sampleBook_wf, sampleBook_nonneg, rfl, by decide,
    (C17_excess_trade_volume_is_dropped sampleBook sampleBook_wf sampleBook_nonneg 100
      16).1 _ rfl (by decide)⟩

/-- C18: a duplicate add desynchronises index and levels. For every book with
well-formed maps in which an order `old` rests in the level at `(side, price)`
and every `add_order` of an order `o` with the same id into a different level
(the other side of the book, or another price): afterwards `order_map` holds
`o` for that id while `old` is still in its level; after a following
`cancel_order` of that id the id is no longer in `order_map` and `old` is
still in its level. -/
theorem C18_duplicate_add_desynchronises (b : OrderBook) (hwf : b.WF) (side : Char) (price : Price)
    (old : Order) (hold : old ∈ levelAt b side price) (o : Order)
    (hid : o.order_id = old.order_id)
    (hdiff : ¬ (decide (side = 'B') = decide (o.side = 'B') ∧ price = o.price)) :
    (add_order b o).order_map old.order_id = some o ∧
      old ∈ levelAt (add_order b o) side price ∧
      (cancel_order (add_order b o) old.order_id).order_map old.order_id = none ∧
      old ∈ levelAt (cancel_order (add_order b o) old.order_id) side price := by
  obtain ⟨step1, hom1⟩ := add_order_step hwf o
  have he : (add_order b o).order_map old.order_id = some o := by
    rw [hom1, ← hid]; simp [indexSet]
  obtain ⟨step2, hom2⟩ := cancel_order_step step1.wf he
  have h1 : levelAt (add_order b o) side price = levelAt b side price := by
    rw [step1.get, if_neg hdiff]
  have h2 : levelAt (cancel_order (add_order b o) old.order_id) side price =
      levelAt (add_order b o) side price := by
    rw [step2.get, if_neg hdiff]
  refine ⟨he, by rw [h1]; exact hold, ?_, by rw [h2, h1]; exact hold⟩
  rw [hom2]; simp [indexErase]

/-- C18 on the sample book: id 1 rests as a bid at 100 and is added again as an
ask at 102. -/
theorem C18_duplicate_add_desynchronises_witness :
    sampleBook.WF ∧ (⟨1, 'B', 100, 10⟩ : Order) ∈ levelAt sampleBook 'B' 100 ∧
      (add_order sampleBook ⟨1, 'A', 102, 3⟩).order_map 1 = some ⟨1, 'A', 102, 3⟩ ∧
      (⟨1, 'B', 100, 10⟩ : Order) ∈ levelAt (add_order sampleBook ⟨1, 'A', 102, 3⟩) 'B' 100 ∧
      (cancel_order (add_order sampleBook ⟨1, 'A', 102, 3⟩) 1).order_map 1 = none ∧
      (⟨1, 'B', 100, 10⟩ : Order) ∈
        levelAt (cancel_order (add_order sampleBook ⟨1, 'A', 102, 3⟩) 1) 'B' 100 :=
  ⟨sampleBook_wf, by decide,
    C18_duplicate_add_desynchronises sampleBook sampleBook_wf 'B' 100 ⟨1, 'B', 100, 10⟩
      (by decide) ⟨1, 'A', 102, 3⟩ rfl (by decide)⟩

/-- C19: side inversion and frame of a trade. For every book with well-formed
maps, every price and every size: `apply_trade` with side `'A'` leaves the ask
map unchanged and every bid level at another price unchanged; with side `'B'`
it leaves the bid map unchanged and every ask level at another price
unchanged; and when no level exists at the price on the consumed side the
whole book (`bids`, `asks`, `order_map`) is returned unchanged. -/
theorem C19_trade_side_inversion_and_frame (b : OrderBook) (hwf : b.WF) (price : Price) (size : Int) :
    (apply_trade b price size 'A').asks = b.asks ∧
      (∀ q, q ≠ price →
        mapFind bidCmp q (apply_trade b price size 'A').bids = mapFind bidCmp q b.bids) ∧
      (apply_trade b price size 'B').bids = b.bids ∧
      (∀ q, q ≠ price →
        mapFind askCmp q (apply_trade b price size 'B').asks = mapFind askCmp q b.asks) ∧
      (mapFind bidCmp price b.bids = none → apply_trade b price size 'A' = b) ∧
      (mapFind askCmp price b.asks = none → apply_trade b price size 'B' = b) := by
  have hBA : ¬ (('B' : Char) = 'A') := by decide
  refine ⟨?_, ?_, ?_, ?_, ?_, ?_⟩
  · cases hL : mapFind bidCmp price b.bids <;> simp [apply_trade, hL]
  · intro q hq
    cases hL : mapFind bidCmp price b.bids with
    | none => simp [apply_trade, hL]
    | some L =>
      simp only [apply_trade, hL, if_true]
      exact mapFind_update_erase_ne bidCmp_strict hq _ hwf.1
  · cases hL : mapFind askCmp price b.asks <;> simp [apply_trade, hL, hBA]
  · intro q hq
    cases hL : mapFind askCmp price b.asks with
    | none => simp [apply_trade, hL, hBA]
    | some L =>
      simp only [apply_trade, hL, hBA, if_true, if_false]
      exact mapFind_update_erase_ne askCmp_strict hq _ hwf.2
  · intro hL; simp [apply_trade, hL]
  · intro hL; simp [apply_trade, hL, hBA]

/-- C19 on the sample book, for a trade of 12 at 100. -/
theorem C19_trade_side_inversion_and_frame_witness :
    sampleBook.WF ∧
      (apply_trade sampleBook 100 12 'A').asks = sampleBook.asks ∧
      (apply_trade sampleBook 100 12 'B').bids = sampleBook.bids ∧
      apply_trade sampleBook 100 12 'B' = sampleBook :=
  ⟨sampleBook_wf,
    (C19_trade_side_inversion_and_frame sampleBook sampleBook_wf 100 12).1,
    (C19_trade_side_inversion_and_frame sampleBook sampleBook_wf 100 12).2.2.1,
    (C19_trade_side_inversion_and_frame sampleBook sampleBook_wf 100 12).2.2.2.2.2 rfl⟩

/-- C20 as stated fails on the depth limit: in the book with ten ask levels at
the prices 0 to 9, `add_order` of an order with side `'N'` at price 10 inserts
it into the ask levels (and not into the bid levels), but no row of the ask
output of `get_top10_levels` is at price 10. -/
theorem C20_ask_beyond_depth_is_not_reported :
    mapFind askCmp 10 (add_order deepAskBook ⟨99, 'N', 10, 1⟩).asks =
        some [⟨99, 'N', 10, 1⟩] ∧
      (add_order deepAskBook ⟨99, 'N', 10, 1⟩).bids = [] ∧
      (get_top10_levels (add_order deepAskBook ⟨99, 'N', 10, 1⟩)).2.length = 10 ∧
      ∀ row ∈ (get_top10_levels (add_order deepAskBook ⟨99, 'N', 10, 1⟩)).2, row.1 ≠ 10 := by
  decide

/-- C20, amended: every side value other than `'B'` is treated as ask. For
every book with well-formed maps and every order `o` whose side is not `'B'`
(`'N'` included): `add_order` leaves the bid map and the bid output of
`get_top10_levels` unchanged and puts `o` at the end of the ask level at its
price; the ask output has a row at that price exactly when that level is among
the first ten ask levels, which is the case whenever the book had fewer than
ten ask levels; a following `modify_order` of its id leaves the bids unchanged
and sets the size of an order with that id in that ask level, and a following
`cancel_order` of its id leaves the bids unchanged and removes every order
with that id from that ask level. -/
theorem C20_non_bid_side_is_ask (b : OrderBook) (hwf : b.WF) (o : Order) (hside : o.side ≠ 'B') :
    (add_order b o).bids = b.bids ∧
      (get_top10_levels (add_order b o)).1 = (get_top10_levels b).1 ∧
      (o.price, mapGet askCmp o.price b.asks ++ [o]) ∈ (add_order b o).asks ∧
      ((∃ row ∈ (get_top10_levels (add_order b o)).2, row.1 = o.price) ↔
        (o.price, mapGet askCmp o.price b.asks ++ [o]) ∈ (add_order b o).asks.take 10) ∧
      (b.asks.length < 10 →
        levelRow (o.price, mapGet askCmp o.price b.asks ++ [o]) ∈
          (get_top10_levels (add_order b o)).2) ∧
      (∀ new_size,
        (modify_order (add_order b o) o.order_id new_size).bids = b.bids ∧
        ∃ w ∈ mapGet askCmp o.price (modify_order (add_order b o) o.order_id new_size).asks,
          w.order_id = o.order_id ∧ w.size = new_size) ∧
      (cancel_order (add_order b o) o.order_id).bids = b.bids ∧
      (∀ w ∈ mapGet askCmp o.price (cancel_order (add_order b o) o.order_id).asks,
        w.order_id ≠ o.order_id) := by
  have hbids : (add_order b o).bids = b.bids := by simp [add_order, hside]
  have hasks : (add_order b o).asks =
      mapUpdate askCmp o.price (fun os => os ++ [o]) b.asks := by simp [add_order, hside]
  have hom : (add_order b o).order_map o.order_id = some o := by
    simp [add_order, hside, indexSet]
  have hfind : mapFind askCmp o.price (add_order b o).asks =
      some (mapGet askCmp o.price b.asks ++ [o]) := by
    rw [hasks]; exact mapFind_mapUpdate_same askCmp_strict _ _ _
  have hmem := mem_of_mapFind askCmp_strict hfind
  have hwf1 : (add_order b o).WF := wf_add_order hwf o
  refine ⟨hbids, ?_, hmem, ?_, ?_, ?_, ?_, ?_⟩
  · rw [get_top10_levels_eq, get_top10_levels_eq, hbids]
  · rw [get_top10_levels_eq]
    constructor
    · rintro ⟨row, hrow, hp⟩
      obtain ⟨ent, hent, rfl⟩ := List.mem_map.1 hrow
      obtain ⟨k, v⟩ := ent
      simp only [levelRow] at hp
      subst hp
      have := mapFind_of_mem askCmp_strict hwf1.2 (List.mem_of_mem_take hent)
      rw [hfind, Option.some.injEq] at this
      rw [this]; exact hent
    · intro h
      exact ⟨_, List.mem_map.2 ⟨_, h, rfl⟩, rfl⟩
  · intro hlen
    rw [get_top10_levels_eq]
    refine List.mem_map.2 ⟨_, ?_, rfl⟩
    have hl : (add_order b o).asks.length ≤ 10 := by
      rw [hasks]
      have := length_mapUpdate_le askCmp o.price (fun os => os ++ [o]) b.asks
      omega
    rw [List.take_of_length_le hl]
    exact hmem
  · intro new_size
    constructor
    · simp [modify_order, hom, hside, hbids]
    · have : (modify_order (add_order b o) o.order_id new_size).asks =
          mapUpdate askCmp o.price (setFirstSize o.order_id new_size) (add_order b o).asks := by
        simp [modify_order, hom, hside]
      rw [this, mapGet_mapUpdate askCmp_strict, if_pos rfl]
      refine exists_mem_setFirstSize new_size ⟨o, ?_, rfl⟩
      simp [mapGet, hfind]
  · simp [cancel_order, hom, hside, hbids]
  · have : (cancel_order (add_order b o) o.order_id).asks =
        eraseIfEmpty askCmp o.price
          (mapUpdate askCmp o.price (removeId o.order_id) (add_order b o).asks) := by
      simp [cancel_order, hom, hside]
    rw [this, mapGet_update_erase askCmp_strict _ _ _ hwf1.2, if_pos rfl]
    intro w hw
    exact (mem_removeId.1 hw).2

/-- C20 amended, on the sample book with an order of side `'N'` at the price of
the existing ask level. -/
theorem C20_non_bid_side_is_ask_witness :
    sampleBook.WF ∧ ('N' : Char) ≠ 'B' ∧
      (add_order sampleBook ⟨7, 'N', 101, 2⟩).bids = sampleBook.bids ∧
      (get_top10_levels (add_order sampleBook ⟨7, 'N', 101, 2⟩)).1 =
        (get_top10_levels sampleBook).1 ∧
      ((101 : Price), mapGet askCmp 101 sampleBook.asks ++ [⟨7, 'N', 101, 2⟩]) ∈
        (add_order sampleBook ⟨7, 'N', 101, 2⟩).asks :=
  ⟨sampleBook_wf, by decide,
    (C20_non_bid_side_is_ask sampleBook sampleBook_wf ⟨7, 'N', 101, 2⟩ (by decide)).1,
    (C20_non_bid_side_is_ask sampleBook sampleBook_wf ⟨7, 'N', 101, 2⟩ (by decide)).2.1,
    (C20_non_bid_side_is_ask sampleBook sampleBook_wf ⟨7, 'N', 101, 2⟩ (by decide)).2.2.1⟩

end MBP
